import Mathlib

/-!
Verification of the core of `create-mcp-docs`: the result optimizer
(`packages/mcp-docs/src/search-optimizer.ts`) and the chunking engine
(`packages/mcp-docs/src/chunking/index.ts`), shallowly embedded in Lean.

Conventions of the embedding:
* JS numbers that hold scores, budgets, or utilization factors are modelled
  as rationals (`ℚ`); token counts are `Nat`; character offsets are `Int`
  (the source can and does produce negative offsets).
* The tokenizer (`js-tiktoken`) is an external collaborator; the optimizer
  side takes abstract `enc : String → List Nat` / `dec : List Nat → String`
  parameters and the chunking side takes `enc : List Char → List Nat` /
  `dec : List Nat → List Char`.
* JS `Array.prototype.sort` with a numeric comparator is stable (ES2019);
  it is modelled by stable insertion sorts on the relevant key.
* A JS loop that cannot terminate (non-positive cursor progress) is modelled
  by an `Option` result, `none` standing for divergence.
-/

set_option autoImplicit false

namespace McpDocs

/-! ## Result optimizer: data model (`search-optimizer.ts`) -/

/-- Metadata carried by a scored retrieval hit (`SearchResult.metadata`). -/
structure HitMetadata where
  tokenCount : Option Nat
  chunkIndex : Option Int
  contextBefore : Option String
  contextAfter : Option String
  deriving DecidableEq, Repr

/-- A scored retrieval hit (`SearchResult` in `types.ts`). -/
structure SearchResult where
  url : String
  content : String
  score : ℚ
  metadata : Option HitMetadata
  deriving DecidableEq, Repr

/-- A per-document group of hits (`DocumentGroup`). -/
structure DocumentGroup where
  url : String
  chunks : List SearchResult
  avgScore : ℚ
  relevanceScore : ℚ
  totalTokens : Nat
  deriving DecidableEq, Repr

/-- The presentation kind of an optimized result. -/
inductive ResultType where
  | full_document
  | expanded_chunk
  | chunk
  deriving DecidableEq, Repr

/-- An output block of the optimizer (`OptimizedResult`). -/
structure OptimizedResult where
  url : String
  content : String
  type : ResultType
  relevanceScore : ℚ
  tokenCount : Nat
  chunksFound : Nat
  deriving DecidableEq, Repr

/-- Models `OptimizationOptions`. -/
structure OptimizationOptions where
  tokenBudget : ℚ
  fullDocumentThreshold : ℚ
  expandedChunkMultiplier : ℚ
  targetUtilization : ℚ
  deriving DecidableEq, Repr

/-! ## Result optimizer: operations -/

/-- Models `result.metadata?.tokenCount || tokenizer.encode(result.content).length`.
JS `||` treats `0` as falsy, so a stored token count of `0` falls back to a
fresh measurement. -/
def hitTokens (enc : String → List Nat) (r : SearchResult) : Nat :=
  match r.metadata.bind (·.tokenCount) with
  | some t => if t = 0 then (enc r.content).length else t
  | none => (enc r.content).length

/-- Models `a.metadata?.chunkIndex || 0` (`0` is falsy and maps to `0` anyway). -/
def hitChunkIndex (r : SearchResult) : Int :=
  (r.metadata.bind (·.chunkIndex)).getD 0

/-- Models `bestChunk.metadata?.contextBefore` under JS truthiness: the empty string
is falsy, so it is treated as absent. -/
def hitContextBefore (r : SearchResult) : Option String :=
  match r.metadata.bind (·.contextBefore) with
  | some s => if s = "" then none else some s
  | none => none

/-- Models `bestChunk.metadata?.contextAfter` under JS truthiness. -/
def hitContextAfter (r : SearchResult) : Option String :=
  match r.metadata.bind (·.contextAfter) with
  | some s => if s = "" then none else some s
  | none => none

/-- The fresh group created by `groupByDocument` when a url is first seen;
the hit is then pushed and its tokens added, so the group starts with the
hit already in it. -/
def newGroup (enc : String → List Nat) (r : SearchResult) : DocumentGroup :=
  { url := r.url, chunks := [r], avgScore := 0, relevanceScore := 0,
    totalTokens := hitTokens enc r }

/-- One step of `groupByDocument`'s loop: look the url up in the insertion
ordered map (`Map` in JS preserves insertion order) and either extend the
existing group or append a fresh one. -/
def insertHit (enc : String → List Nat) :
    List DocumentGroup → SearchResult → List DocumentGroup
  | [], r => [newGroup enc r]
  | g :: gs, r =>
      if g.url = r.url then
        { g with chunks := g.chunks ++ [r],
                 totalTokens := g.totalTokens + hitTokens enc r } :: gs
      else
        g :: insertHit enc gs r

/-- Models `groupByDocument`: fold the hits into an insertion-ordered group list. -/
def groupByDocument (enc : String → List Nat) (results : List SearchResult) :
    List DocumentGroup :=
  results.foldl (insertHit enc) []

/-- Scoring of a single group inside `calculateRelevanceScores`. -/
def scoreGroup (g : DocumentGroup) : DocumentGroup :=
  let avg : ℚ := (g.chunks.map (·.score)).sum / (g.chunks.length : ℚ)
  let rel0 : ℚ := (g.chunks.length : ℚ) * avg
  let rel : ℚ :=
    if 3 ≤ g.chunks.length ∧ (4/5 : ℚ) < avg then rel0 * (3/2) else rel0
  { g with avgScore := avg, relevanceScore := rel }

/-- Models `calculateRelevanceScores`. -/
def calculateRelevanceScores (groups : List DocumentGroup) : List DocumentGroup :=
  groups.map scoreGroup

/-- Stable insertion of a group into a list sorted by descending
`relevanceScore`; models one step of JS `sort((a, b) => b.relevanceScore -
a.relevanceScore)`, which is a stable sort. -/
def insertByRelevance (g : DocumentGroup) :
    List DocumentGroup → List DocumentGroup
  | [] => [g]
  | h :: t =>
      if h.relevanceScore ≤ g.relevanceScore then g :: h :: t
      else h :: insertByRelevance g t

/-- Stable sort by descending `relevanceScore` (step 3 of `optimizeResults`). -/
def sortByRelevanceDesc : List DocumentGroup → List DocumentGroup
  | [] => []
  | g :: gs => insertByRelevance g (sortByRelevanceDesc gs)

/-- Stable insertion by ascending `metadata.chunkIndex || 0`; models one step
of the stable JS `sort((a, b) => aIndex - bIndex)` in
`combineChunksWithContext`. -/
def insertByChunkIndex (r : SearchResult) :
    List SearchResult → List SearchResult
  | [] => [r]
  | h :: t =>
      if hitChunkIndex r ≤ hitChunkIndex h then r :: h :: t
      else h :: insertByChunkIndex r t

/-- Stable sort of hits by ascending chunk index. -/
def sortByChunkIndex : List SearchResult → List SearchResult
  | [] => []
  | r :: rs => insertByChunkIndex r (sortByChunkIndex rs)

/-- Stable insertion by descending `score`; models one step of the stable JS
`sort((a, b) => b.score - a.score)` in `createExpandedChunkResult`. -/
def insertByScore (r : SearchResult) : List SearchResult → List SearchResult
  | [] => [r]
  | h :: t =>
      if h.score ≤ r.score then r :: h :: t
      else h :: insertByScore r t

/-- Stable sort of hits by descending score. -/
def sortByScoreDesc : List SearchResult → List SearchResult
  | [] => []
  | r :: rs => insertByScore r (sortByScoreDesc rs)

/-- Models `chunks.reduce((best, current) => current.score > best.score ? current :
best)`: the first hit of maximal score wins ties. -/
def bestChunk (c : SearchResult) (cs : List SearchResult) : SearchResult :=
  cs.foldl (fun best cur => if best.score < cur.score then cur else best) c

/-- The highest-scoring hit of a group. JS `reduce` without an initial value
throws on an empty array; groups produced by `groupByDocument` are never
empty, so the empty case is an arbitrary placeholder. -/
def groupBest (g : DocumentGroup) : SearchResult :=
  match g.chunks with
  | [] => { url := "", content := "", score := 0, metadata := none }
  | c :: cs => bestChunk c cs

/-- Models `combineChunksWithContext`: order the hits by chunk index, trim each
content, join with the separator line. -/
def combineChunksWithContext (chunks : List SearchResult) : String :=
  String.intercalate "\n\n--- \n\n"
    ((sortByChunkIndex chunks).map (fun c => c.content.trim))

/-- Models `createFullDocumentResult`. -/
def createFullDocumentResult (enc : String → List Nat) (g : DocumentGroup) :
    OptimizedResult :=
  let combined := combineChunksWithContext g.chunks
  { url := g.url, content := combined, type := .full_document,
    relevanceScore := g.relevanceScore,
    tokenCount := (enc combined).length, chunksFound := g.chunks.length }

/-- Models `createExpandedChunkResult`: expand the best hit with its context, but if
the group has more than one hit, supersede that with the ordered combination
of the top 3 hits by score. -/
def createExpandedChunkResult (enc : String → List Nat) (g : DocumentGroup) :
    OptimizedResult :=
  let best := groupBest g
  let e1 : String :=
    match hitContextBefore best with
    | some s => s ++ "\n\n" ++ best.content
    | none => best.content
  let e2 : String :=
    match hitContextAfter best with
    | some s => e1 ++ "\n\n" ++ s
    | none => e1
  let content : String :=
    if 1 < g.chunks.length then
      combineChunksWithContext ((sortByScoreDesc g.chunks).take 3)
    else e2
  { url := g.url, content := content, type := .expanded_chunk,
    relevanceScore := g.relevanceScore,
    tokenCount := (enc content).length, chunksFound := g.chunks.length }

/-- Models `createChunkResult`. -/
def createChunkResult (enc : String → List Nat) (g : DocumentGroup) :
    OptimizedResult :=
  let best := groupBest g
  { url := g.url, content := best.content, type := .chunk,
    relevanceScore := g.relevanceScore,
    tokenCount := (enc best.content).length, chunksFound := g.chunks.length }

/-- Models `determineStrategy`. -/
def determineStrategy (opts : OptimizationOptions) (g : DocumentGroup) :
    ResultType :=
  if opts.fullDocumentThreshold ≤ (g.chunks.length : ℚ) ∧
      (3/4 : ℚ) < g.avgScore then
    .full_document
  else if 2 ≤ g.chunks.length ∨
      (g.chunks.length = 1 ∧ (17/20 : ℚ) < g.avgScore) then
    .expanded_chunk
  else
    .chunk

/-- Materialization of one group: the `switch (strategy)` in
`applyOptimizationStrategy`. -/
def materializeGroup (enc : String → List Nat) (opts : OptimizationOptions)
    (g : DocumentGroup) : OptimizedResult :=
  match determineStrategy opts g with
  | .full_document => createFullDocumentResult enc g
  | .expanded_chunk => createExpandedChunkResult enc g
  | .chunk => createChunkResult enc g

/-- JS `ToIntegerOrInfinity`: truncation toward zero, as applied by
`Array.prototype.slice` to a fractional argument. -/
def jsToInt (q : ℚ) : Int :=
  if q < 0 then ⌈q⌉ else ⌊q⌋

/-- JS `tokens.slice(0, x)` for an integer `x`: a negative end counts back
from the end of the array. -/
def jsSliceTo {α : Type} (l : List α) (x : Int) : List α :=
  if x < 0 then l.take ((l.length : Int) + x).toNat else l.take x.toNat

/-- Models `truncateResult`: keep `maxTokens - 20` tokens, decode, append the fixed
truncation notice; report the kept count plus 20. -/
def truncateResult (enc : String → List Nat) (dec : List Nat → String)
    (result : OptimizedResult) (maxTokens : ℚ) : OptimizedResult :=
  let tokens := enc result.content
  let truncatedTokens := jsSliceTo tokens (jsToInt (maxTokens - 20))
  { result with
      content := dec truncatedTokens ++ "\n\n[Content truncated due to length...]",
      tokenCount := truncatedTokens.length + 20 }

/-- The packing loop of `applyOptimizationStrategy`: append whole results
while they fit, truncate the first one that does not fit when more than 500
tokens remain, and stop in every case at that first misfit. -/
def applyOptimizationStrategy (enc : String → List Nat)
    (dec : List Nat → String) (opts : OptimizationOptions) (maxTokens : ℚ) :
    List DocumentGroup → ℚ → List OptimizedResult
  | [], _ => []
  | g :: gs, usedTokens =>
      let r := materializeGroup enc opts g
      if usedTokens + (r.tokenCount : ℚ) ≤ maxTokens then
        r :: applyOptimizationStrategy enc dec opts maxTokens gs
              (usedTokens + (r.tokenCount : ℚ))
      else if 500 < maxTokens - usedTokens then
        [truncateResult enc dec r (maxTokens - usedTokens)]
      else
        []

/-- Models `optimizeResults` (the `optimizedResults` component; the stats record is
not modelled). -/
def optimizeResults (enc : String → List Nat) (dec : List Nat → String)
    (opts : OptimizationOptions) (results : List SearchResult) :
    List OptimizedResult :=
  applyOptimizationStrategy enc dec opts
    (opts.tokenBudget * opts.targetUtilization)
    (sortByRelevanceDesc (calculateRelevanceScores (groupByDocument enc results)))
    0

/-- The urls of a list of hits that are not yet in `seen`, in order of first
occurrence. Used to specify the insertion order of `groupByDocument`. -/
def newUrls (seen : List String) : List String → List String
  | [] => []
  | u :: us =>
      if u ∈ seen then newUrls seen us else u :: newUrls (seen ++ [u]) us

/-- The length of the longest prefix of a token-count list whose running sum,
started at `used`, stays within `maxT`. Used to specify the packing loop. -/
def fitCount (maxT : ℚ) : List Nat → ℚ → Nat
  | [], _ => 0
  | t :: ts, used =>
      if used + (t : ℚ) ≤ maxT then fitCount maxT ts (used + (t : ℚ)) + 1
      else 0

/-- The number of leading groups the packing loop appends whole. -/
def packFitCount (enc : String → List Nat) (opts : OptimizationOptions)
    (maxT : ℚ) (gs : List DocumentGroup) (used : ℚ) : Nat :=
  fitCount maxT (gs.map (fun g => (materializeGroup enc opts g).tokenCount))
    used

/-- The tokens consumed by the first `k` materialized groups. -/
def packedPrefixTokens (enc : String → List Nat)
    (opts : OptimizationOptions) (gs : List DocumentGroup) (k : Nat) : ℚ :=
  ((gs.take k).map
    (fun g => ((materializeGroup enc opts g).tokenCount : ℚ))).sum

/-! ## Chunking engine: data model (`chunking/index.ts`)

Document text is modelled as `List Char` so that character-level operations
(slicing, regexes, splitting) are fully explicit. -/

/-- Models `ChunkingConfig`. The strategy is a plain string, as at JS runtime, so
that values outside the enumerated set can be expressed. -/
structure ChunkingConfig where
  strategy : String
  chunkSize : Nat
  chunkOverlap : Nat
  minChunkSize : Option Nat
  maxChunkSize : Option Nat
  useContextualEmbeddings : Bool
  semanticSeparators : Option (List (List Char))
  deriving DecidableEq, Repr

/-- Models `this.config.minChunkSize || 50`: JS `||` treats `0` as falsy. -/
def effMinChunkSize (cfg : ChunkingConfig) : Nat :=
  match cfg.minChunkSize with
  | some m => if m = 0 then 50 else m
  | none => 50

/-- The `context` metadata attached by late chunking. -/
structure ChunkContext where
  before : Option (List Char)
  after : Option (List Char)
  documentLength : Nat
  deriving DecidableEq, Repr

/-- Models `DocumentChunk`. Offsets are `Int` because the source can produce
negative ones. -/
structure DocumentChunk where
  content : List Char
  index : Nat
  startOffset : Int
  endOffset : Int
  tokenCount : Nat
  url : String
  ctype : String
  context : Option ChunkContext
  deriving DecidableEq, Repr

/-! ## Chunking engine: text preprocessing -/

/-- The whitespace class of JS `String.prototype.trim` and regex `\s`
(restricted to the ASCII characters that can occur here). -/
def isJsSpace (c : Char) : Bool :=
  c == ' ' || c == '\t' || c == '\n' || c == '\r' ||
    c == '\x0b' || c == '\x0c'

/-- JS `String.prototype.trim`. -/
def jsTrim (l : List Char) : List Char :=
  ((l.dropWhile isJsSpace).reverse.dropWhile isJsSpace).reverse

/-- Models `.replace(/\r\n/g, "\n")`. -/
def normEol : List Char → List Char
  | '\r' :: '\n' :: rest => '\n' :: normEol rest
  | c :: rest => c :: normEol rest
  | [] => []

/-- Fueled body of `collapseNl`. Well-founded recursion does not reduce in
the kernel, so the scanners are structurally recursive on a fuel that one
unit per consumed character always suffices for; the wrappers pass
`length + 1`. -/
def collapseNlF : Nat → List Char → List Char
  | 0, l => l
  | fuel + 1, '\n' :: '\n' :: '\n' :: rest =>
      collapseNlF fuel ('\n' :: '\n' :: rest)
  | fuel + 1, c :: rest => c :: collapseNlF fuel rest
  | _ + 1, [] => []

/-- Models `.replace(/\n{3,}/g, "\n\n")`: each maximal run of three or more
newlines collapses to two. -/
def collapseNl (l : List Char) : List Char :=
  collapseNlF (l.length + 1) l

/-- Fueled body of `collapseSpaces`. -/
def collapseSpacesF : Nat → List Char → List Char
  | 0, l => l
  | _ + 1, [] => []
  | fuel + 1, c :: rest =>
      if c == ' ' || c == '\t' then
        ' ' :: collapseSpacesF fuel
          (rest.dropWhile (fun d => d == ' ' || d == '\t'))
      else c :: collapseSpacesF fuel rest

/-- Models `.replace(/[ \t]+/g, " ")`. -/
def collapseSpaces (l : List Char) : List Char :=
  collapseSpacesF (l.length + 1) l

/-- Models `preprocessContent`: normalize line endings, collapse newline runs and
space runs, trim. -/
def preprocessContent (content : List Char) : List Char :=
  jsTrim (collapseSpaces (collapseNl (normEol content)))

/-! ## Chunking engine: traditional strategy -/

/-- The body of `traditionalChunking`'s window loop: one entry per window
start index; windows below the minimum token count are skipped without
consuming a chunk index. -/
def tradEmit (dec : List Nat → List Char) (cfg : ChunkingConfig) (u : String)
    (tokens : List Nat) : List Nat → Nat → List DocumentChunk
  | [], _ => []
  | i :: is, idx =>
      let chunkTokens := (tokens.drop i).take cfg.chunkSize
      if chunkTokens.length < effMinChunkSize cfg then
        tradEmit dec cfg u tokens is idx
      else
        let contentC := dec chunkTokens
        { content := contentC, index := idx, startOffset := 0,
          endOffset := (contentC.length : Int),
          tokenCount := chunkTokens.length, url := u,
          ctype := "token-based", context := none }
          :: tradEmit dec cfg u tokens is (idx + 1)

/-- Models `traditionalChunking`. The JS loop advances by
`chunkSize - chunkOverlap`; when that step is not positive and there is at
least one token, the loop never terminates, which the model renders as
`none`. -/
def traditionalChunking (enc : List Char → List Nat)
    (dec : List Nat → List Char) (cfg : ChunkingConfig) (content : List Char)
    (u : String) : Option (List DocumentChunk) :=
  let tokens := enc content
  if tokens.length = 0 then some []
  else if cfg.chunkSize ≤ cfg.chunkOverlap then none
  else
    let step := cfg.chunkSize - cfg.chunkOverlap
    some (tradEmit dec cfg u tokens
      (List.range' 0 ((tokens.length + step - 1) / step) step) 0)

/-! ## Chunking engine: sentence strategy -/

/-- Terminal punctuation recognized by the sentence splitter. -/
def isSentenceTerm (c : Char) : Bool :=
  c == '.' || c == '!' || c == '?'

/-- A candidate match's run of non-terminator characters (the `[^\.!?]+`
part), after skipping leading terminators that cannot start a match. -/
def sentenceBody (s : List Char) : List Char :=
  (s.dropWhile isSentenceTerm).takeWhile (fun c => !(isSentenceTerm c))

/-- The run of terminators following the body (the `[\.!?]+` part). -/
def sentenceTerms (s : List Char) : List Char :=
  ((s.dropWhile isSentenceTerm).dropWhile
    (fun c => !(isSentenceTerm c))).takeWhile isSentenceTerm

/-- What remains of the input after one candidate match. -/
def sentenceRest (s : List Char) : List Char :=
  ((s.dropWhile isSentenceTerm).dropWhile
    (fun c => !(isSentenceTerm c))).dropWhile isSentenceTerm

/-- Fueled body of `sentenceMatches`; every step consumes at least one
character of `s`. -/
def sentenceMatchesF : Nat → List Char → List (List Char)
  | 0, _ => []
  | fuel + 1, s =>
      if sentenceBody s = [] ∨ sentenceTerms s = [] then []
      else (sentenceBody s ++ sentenceTerms s)
        :: sentenceMatchesF fuel (sentenceRest s)

/-- Models `content.match(/[^\.!?]+[\.!?]+/g)`: the successive maximal runs of
non-terminator characters, each extended with the following maximal run of
terminators; a trailing run without terminators is not matched. -/
def sentenceMatches (s : List Char) : List (List Char) :=
  sentenceMatchesF (s.length + 1) s

/-- The accumulation loop of `sentenceChunking`. `buf` is `currentChunk`,
`off` is `currentOffset`. Note that the buffer is always extended through
`currentChunk + " " + sentence`, so it carries one separator space per
joined sentence; the emitted `startOffset = currentOffset - currentChunk.length`
counts those spaces although `currentOffset` never does. -/
def sentenceLoop (enc : List Char → List Nat) (cfg : ChunkingConfig)
    (u : String) : List (List Char) → List Char → Nat → Nat →
    List DocumentChunk
  | [], buf, idx, off =>
      if jsTrim buf = [] then []
      else
        [{ content := jsTrim buf, index := idx,
           startOffset := (off : Int) - (buf.length : Int),
           endOffset := (off : Int), tokenCount := (enc buf).length,
           url := u, ctype := "sentence", context := none }]
  | sentence :: ss, buf, idx, off =>
      let potential := buf ++ [' '] ++ sentence
      if cfg.chunkSize < (enc potential).length ∧ buf ≠ [] then
        { content := jsTrim buf, index := idx,
          startOffset := (off : Int) - (buf.length : Int),
          endOffset := (off : Int), tokenCount := (enc buf).length,
          url := u, ctype := "sentence", context := none }
          :: sentenceLoop enc cfg u ss sentence (idx + 1)
              (off + sentence.length)
      else sentenceLoop enc cfg u ss potential idx (off + sentence.length)

/-- Models `sentenceChunking`: `match(...) || [content]`, then greedy buffering. -/
def sentenceChunking (enc : List Char → List Nat) (cfg : ChunkingConfig)
    (content : List Char) (u : String) : List DocumentChunk :=
  let sentences :=
    match sentenceMatches content with
    | [] => [content]
    | ms => ms
  sentenceLoop enc cfg u sentences [] 0 0

/-! ## Chunking engine: semantic strategy -/

/-- Index of the leftmost occurrence of `sep` in `s`, or `none`; the empty
separator never matches here (`jsSplit` treats it separately). -/
def idxOfSep (sep : List Char) (s : List Char) : Option Nat :=
  if sep = [] then none
  else (List.range (s.length + 1)).find? (fun i => sep.isPrefixOf (s.drop i))

/-- Fueled body of `splitOnList`; every step consumes at least the length
of the (non-empty) separator. -/
def splitOnListF : Nat → List Char → List Char → List (List Char)
  | 0, _, s => [s]
  | fuel + 1, sep, s =>
      match idxOfSep sep s with
      | none => [s]
      | some i => s.take i :: splitOnListF fuel sep (s.drop (i + sep.length))

/-- Split on every non-overlapping occurrence of a non-empty separator,
left to right (the behaviour of JS `String.prototype.split`). -/
def splitOnList (sep : List Char) (s : List Char) : List (List Char) :=
  splitOnListF (s.length + 1) sep s

/-- JS `String.prototype.split`: the empty separator splits into single
characters (and the empty string into `[]`). -/
def jsSplit (sep : List Char) (s : List Char) : List (List Char) :=
  if sep = [] then s.map (fun c => [c]) else splitOnList sep s

/-- The iterated splitting at the start of `semanticChunking`:
`config.semanticSeparators || ["\n\n", "\n"]`, each separator pass
re-splitting every current section. -/
def semanticSections (cfg : ChunkingConfig) (content : List Char) :
    List (List Char) :=
  let seps := cfg.semanticSeparators.getD [['\n', '\n'], ['\n']]
  seps.foldl (fun secs sep => (secs.map (jsSplit sep)).flatten) [content]

/-- The chunk emitted for a section that is neither skipped nor split
further. -/
def semEmit (enc : List Char → List Nat) (u : String) (s : List Char)
    (idx off : Nat) : DocumentChunk :=
  { content := jsTrim s, index := idx, startOffset := (off : Int),
    endOffset := (off : Int) + (s.length : Int),
    tokenCount := (enc s).length, url := u, ctype := "semantic",
    context := none }

/-- The section loop of `semanticChunking`. Oversized sections (token count
above `maxChunkSize`, when that field is set — the JS comparison against
`undefined` is always false) are re-chunked by the traditional strategy with
offsets shifted by the running cursor; divergence of that sub-call
propagates. -/
def semLoop (enc : List Char → List Nat) (dec : List Nat → List Char)
    (cfg : ChunkingConfig) (u : String) :
    List (List Char) → Nat → Nat → Option (List DocumentChunk)
  | [], _, _ => some []
  | s :: ss, idx, off =>
      let tc := (enc s).length
      if tc < effMinChunkSize cfg then
        semLoop enc dec cfg u ss idx (off + s.length)
      else
        match cfg.maxChunkSize with
        | some m =>
            if m < tc then
              match traditionalChunking enc dec cfg s u with
              | none => none
              | some subs =>
                  (semLoop enc dec cfg u ss (idx + subs.length)
                    (off + s.length)).map
                    (fun rest =>
                      (subs.enum.map (fun p =>
                        match p with
                        | (j, ch) =>
                          { ch with
                            index := idx + j,
                            startOffset := (off : Int) + ch.startOffset,
                            endOffset := (off : Int) + ch.endOffset })) ++ rest)
            else
              (semLoop enc dec cfg u ss (idx + 1) (off + s.length)).map
                (semEmit enc u s idx off :: ·)
        | none =>
            (semLoop enc dec cfg u ss (idx + 1) (off + s.length)).map
              (semEmit enc u s idx off :: ·)

/-- Models `semanticChunking`. -/
def semanticChunking (enc : List Char → List Nat)
    (dec : List Nat → List Char) (cfg : ChunkingConfig) (content : List Char)
    (u : String) : Option (List DocumentChunk) :=
  semLoop enc dec cfg u (semanticSections cfg content) 0 0

/-! ## Chunking engine: late ("contextual") chunking -/

/-- Start indices of the non-overlapping occurrences of `"\n\n"`, scanning
left to right as `regex.exec` with the `g` flag does. -/
def nlnlPositions : List Char → Nat → List Nat
  | '\n' :: '\n' :: rest, i => i :: nlnlPositions rest (i + 2)
  | _ :: rest, i => nlnlPositions rest (i + 1)
  | [], _ => []

/-- After the first `#` of a candidate header: any further `#`s then one
whitespace character (the `#+\s` part of `/^#+\s/m`). -/
def hashesThenSpace : List Char → Bool
  | [] => false
  | c :: rest => if c = '#' then hashesThenSpace rest else isJsSpace c

/-- Whether a markdown header starts at index `i` (the `^` of `/^#+\s/m`:
start of string or just after a newline). -/
def isHeaderAt (c : List Char) (i : Nat) : Bool :=
  (i == 0 || c.getD (i - 1) 'x' == '\n') &&
    (match c.drop i with
     | '#' :: rest => hashesThenSpace rest
     | _ => false)

/-- The `match.index` values of `/^#+\s/gm` over the content. -/
def headerPositions (c : List Char) : List Nat :=
  (List.range c.length).filter (isHeaderAt c)

/-- Sorted insertion without duplicates. -/
def sortedInsertNat (n : Nat) : List Nat → List Nat
  | [] => [n]
  | m :: ms =>
      if n < m then n :: m :: ms
      else if n = m then m :: ms
      else m :: sortedInsertNat n ms

/-- Models `[...new Set(xs)].sort((a, b) => a - b)`. -/
def sortDedupNat (l : List Nat) : List Nat :=
  l.foldr sortedInsertNat []

/-- Models `findSemanticBoundaries`: document start, markdown header starts,
paragraph breaks, document end; deduplicated and sorted ascending. -/
def findSemanticBoundaries (c : List Char) : List Nat :=
  sortDedupNat (0 :: (headerPositions c ++ nlnlPositions c 0 ++ [c.length]))

/-- JS `String.prototype.slice` index normalization. -/
def jsSliceIdx (n : Nat) (x : Int) : Nat :=
  if x < 0 then ((n : Int) + x).toNat else min x.toNat n

/-- JS `content.slice(a, b)` on the character list. -/
def sliceChars (c : List Char) (a b : Int) : List Char :=
  (c.take (jsSliceIdx c.length b)).drop (jsSliceIdx c.length a)

/-- Models `findOptimalChunkEnd`. The float literal `1.2` is modelled by the exact
rational `6/5`, so `b ≤ min(targetEnd * 1.2, len)` becomes
`5·b ≤ 6·targetEnd ∧ b ≤ len` over the integers; the choice among candidate
boundaries is the JS `reduce` keeping the earlier one on ties. -/
def findOptimalChunkEnd (len : Nat) (start : Int) (targetSize : Nat)
    (boundaries : List Nat) : Int :=
  let targetEnd : Int := start + ((targetSize * 4 : Nat) : Int)
  let cands : List Nat := boundaries.filter (fun b =>
    decide (start < (b : Int)) &&
      (decide (5 * (b : Int) ≤ 6 * targetEnd) &&
        decide ((b : Int) ≤ (len : Int))))
  match cands with
  | [] => min targetEnd (len : Int)
  | c0 :: cs =>
      let best : Nat := cs.foldl (fun (best cur : Nat) =>
        if ((cur : Int) - targetEnd).natAbs < ((best : Int) - targetEnd).natAbs
        then cur else best) c0
      (best : Int)

/-- Models `createContextualMetadata`: up to 200 characters of verbatim context on
each side, trimmed, with ellipsis markers, `undefined` when empty. -/
def createContextualMetadata (c : List Char) (chunkStart chunkEnd : Int) :
    ChunkContext :=
  let beforeCtx := jsTrim (sliceChars c (max 0 (chunkStart - 200)) chunkStart)
  let afterCtx :=
    jsTrim (sliceChars c chunkEnd (min ((c.length : Nat) : Int) (chunkEnd + 200)))
  { before := if beforeCtx = [] then none
      else some ('.' :: '.' :: '.' :: beforeCtx),
    after := if afterCtx = [] then none
      else some (afterCtx ++ ['.', '.', '.']),
    documentLength := c.length }

/-- The scan loop of `lateChunking`, with explicit fuel: the JS `while` has
no builtin bound, and a configuration without forward progress loops
forever, which the model renders as `none` once the fuel — one unit per
iteration, `content.length + 1` at the top level, sufficient whenever every
iteration advances the cursor by at least one — runs out. -/
def lateLoop (enc : List Char → List Nat) (cfg : ChunkingConfig)
    (c : List Char) (u : String) (bnds : List Nat) :
    Nat → Int → Nat → Option (List DocumentChunk)
  | 0, pos, _ => if pos < (c.length : Int) then none else some []
  | fuel + 1, pos, idx =>
      if pos < (c.length : Int) then
        let chunkEnd := findOptimalChunkEnd c.length pos cfg.chunkSize bnds
        let chunkContent := sliceChars c pos chunkEnd
        if (enc chunkContent).length < effMinChunkSize cfg then
          lateLoop enc cfg c u bnds fuel chunkEnd idx
        else
          (lateLoop enc cfg c u bnds fuel
            (max (pos + (cfg.chunkSize : Int) - (cfg.chunkOverlap : Int))
              (chunkEnd - (cfg.chunkOverlap : Int))) (idx + 1)).map
            (fun rest =>
              { content := chunkContent, index := idx, startOffset := pos,
                endOffset := chunkEnd,
                tokenCount := (enc chunkContent).length, url := u,
                ctype := "semantic",
                context := some (createContextualMetadata c pos chunkEnd) }
                :: rest)
      else some []

/-- Models `lateChunking`. -/
def lateChunking (enc : List Char → List Nat) (cfg : ChunkingConfig)
    (content : List Char) (u : String) : Option (List DocumentChunk) :=
  lateLoop enc cfg content u (findSemanticBoundaries content)
    (content.length + 1) 0 0

/-- Models `chunkDocument`: preprocess, then dispatch on the strategy string. The
JS `switch` sends both `"traditional"` and every unrecognized value to
`traditionalChunking` (`case "traditional": default:`). -/
def chunkDocument (enc : List Char → List Nat) (dec : List Nat → List Char)
    (cfg : ChunkingConfig) (content : List Char) (u : String) :
    Option (List DocumentChunk) :=
  let cleaned := preprocessContent content
  if cfg.strategy = "late-chunking" then lateChunking enc cfg cleaned u
  else if cfg.strategy = "semantic" then semanticChunking enc dec cfg cleaned u
  else if cfg.strategy = "sentence" then
    some (sentenceChunking enc cfg cleaned u)
  else traditionalChunking enc dec cfg cleaned u

/-! ## Tokenizer assumptions and concrete witnesses -/

/-- The assumptions on the external tokenizer collaborator used by the
offset-invariant theorem: encoding the empty text yields no tokens, decoding
is concatenative (BPE decoding joins per-token strings), decode∘encode is
the identity (the round-trip law of the tokenizer contract), and every
individual token decodes to non-empty text. -/
def TokenizerSound (enc : List Char → List Nat)
    (dec : List Nat → List Char) : Prop :=
  enc [] = [] ∧ (∀ a b, dec (a ++ b) = dec a ++ dec b) ∧
    (∀ s, dec (enc s) = s) ∧ ∀ t, dec [t] ≠ []

/-- A concrete tokenizer (one token per character) for witnesses. -/
def charEnc (s : List Char) : List Nat := s.map Char.toNat

/-- Decoder matching `charEnc`. -/
def charDec (l : List Nat) : List Char := l.map Char.ofNat

/-- A concrete string tokenizer for optimizer witnesses. -/
def strEnc (s : String) : List Nat := s.data.map Char.toNat

/-- Decoder matching `strEnc`. -/
def strDec (l : List Nat) : String := String.mk (l.map Char.ofNat)

/-! ## Concrete witness data -/

/-- A concrete hit for document `A` (integer score so that the record is
kernel-evaluable). -/
def wHitA1 : SearchResult :=
  { url := "A", content := "aaaa", score := 1, metadata := none }

/-- A concrete hit for document `B`. -/
def wHitB : SearchResult :=
  { url := "B", content := "bbbb", score := 0, metadata := none }

/-- A second concrete hit for document `A`. -/
def wHitA2 : SearchResult :=
  { url := "A", content := "cccc", score := 1, metadata := none }

/-- A concrete hit list. -/
def wHits : List SearchResult := [wHitA1, wHitB, wHitA2]

/-- Concrete optimization options (the source defaults). -/
def wOpts : OptimizationOptions :=
  { tokenBudget := 10000, fullDocumentThreshold := 3,
    expandedChunkMultiplier := 2, targetUtilization := 9/10 }

/-- The scored group for document `A` built from `wHits`. -/
def wScoredA : DocumentGroup :=
  { url := "A", chunks := [wHitA1, wHitA2], avgScore := 1,
    relevanceScore := 2, totalTokens := 8 }

/-- The scored group for document `B` built from `wHits`. -/
def wScoredB : DocumentGroup :=
  { url := "B", chunks := [wHitB], avgScore := 0,
    relevanceScore := 0, totalTokens := 4 }

/-- The (unscored) group for document `A` built from `wHits`. -/
def wGroupA : DocumentGroup :=
  { url := "A", chunks := [wHitA1, wHitA2], avgScore := 0,
    relevanceScore := 0, totalTokens := 8 }

/-- A concrete high-scoring three-chunk group. -/
def wGroupFull : DocumentGroup :=
  { url := "A", chunks := [wHitA1, wHitA1, wHitA2], avgScore := 1,
    relevanceScore := 3, totalTokens := 12 }

/-- A config whose strategy string (the spec's name for the strategy) is
outside the code's enumerated set. -/
def wCfgBogus : ChunkingConfig :=
  { strategy := "contextual", chunkSize := 3, chunkOverlap := 1,
    minChunkSize := some 1, maxChunkSize := some 1000,
    useContextualEmbeddings := true, semanticSeparators := none }

/-- A sentence-strategy config with `chunkOverlap ≥ chunkSize`. -/
def wCfgSentenceBig : ChunkingConfig :=
  { strategy := "sentence", chunkSize := 5, chunkOverlap := 10,
    minChunkSize := some 1, maxChunkSize := some 1000,
    useContextualEmbeddings := true, semanticSeparators := none }

/-- A small sentence-strategy config. -/
def wCfgSentence : ChunkingConfig :=
  { strategy := "sentence", chunkSize := 1, chunkOverlap := 0,
    minChunkSize := some 1, maxChunkSize := some 1000,
    useContextualEmbeddings := true, semanticSeparators := none }

/-- A small late-chunking config with `0 < chunkOverlap < chunkSize`. -/
def wCfgLate : ChunkingConfig :=
  { strategy := "late-chunking", chunkSize := 3, chunkOverlap := 1,
    minChunkSize := some 1, maxChunkSize := some 1000,
    useContextualEmbeddings := true, semanticSeparators := none }

/-- A small semantic-strategy config splitting on blank lines. -/
def wCfgSem : ChunkingConfig :=
  { strategy := "semantic", chunkSize := 4, chunkOverlap := 1,
    minChunkSize := some 2, maxChunkSize := some 6,
    useContextualEmbeddings := true,
    semanticSeparators := some [['\n', '\n']] }

/-- A placeholder chunk used only as the default of `List.getD`. -/
def wDummyChunk : DocumentChunk :=
  { content := [], index := 0, startOffset := 0, endOffset := 0,
    tokenCount := 0, url := "", ctype := "", context := none }

/-! ## Grouping lemmas (`groupByDocument`) -/

theorem insertHit_map_url (enc : String → List Nat) (gs : List DocumentGroup)
    (r : SearchResult) :
    (insertHit enc gs r).map (·.url) =
      if r.url ∈ gs.map (·.url) then gs.map (·.url)
      else gs.map (·.url) ++ [r.url] := by
  induction gs with
  | nil => simp [insertHit, newGroup]
  | cons g gs ih =>
      by_cases h : g.url = r.url
      · simp [insertHit, h]
      · simp only [insertHit, if_neg h, List.map_cons, ih, List.mem_cons]
        by_cases hm : r.url ∈ gs.map (·.url)
        · simp [hm, Ne.symm h]
        · simp [hm, Ne.symm h]

theorem insertHit_sum_chunks (enc : String → List Nat)
    (gs : List DocumentGroup) (r : SearchResult) :
    ((insertHit enc gs r).map (·.chunks.length)).sum =
      (gs.map (·.chunks.length)).sum + 1 := by
  induction gs with
  | nil => simp [insertHit, newGroup]
  | cons g gs ih =>
      by_cases h : g.url = r.url
      · simp [insertHit, h]; omega
      · simp [insertHit, h, ih]; omega

theorem insertHit_preserves (enc : String → List Nat)
    (P : DocumentGroup → Prop) (gs : List DocumentGroup) (r : SearchResult)
    (hnew : P (newGroup enc r))
    (hupd : ∀ g : DocumentGroup, P g → g.url = r.url →
      P { g with chunks := g.chunks ++ [r],
                 totalTokens := g.totalTokens + hitTokens enc r })
    (hall : ∀ g ∈ gs, P g) :
    ∀ g ∈ insertHit enc gs r, P g := by
  induction gs with
  | nil =>
      intro g hg
      simp only [insertHit, List.mem_singleton] at hg
      exact hg ▸ hnew
  | cons g0 gs ih =>
      intro g hg
      by_cases h : g0.url = r.url
      · simp only [insertHit, if_pos h, List.mem_cons] at hg
        rcases hg with hg | hg
        · exact hg ▸ hupd g0 (hall g0 (by simp)) h
        · exact hall g (List.mem_cons_of_mem _ hg)
      · simp only [insertHit, if_neg h, List.mem_cons] at hg
        rcases hg with hg | hg
        · exact hg ▸ hall g0 (by simp)
        · exact ih (fun g' hg' => hall g' (List.mem_cons_of_mem _ hg')) g hg

theorem insertHit_mem_mono (enc : String → List Nat)
    (gs : List DocumentGroup) (r : SearchResult) (x : SearchResult)
    (u : String) (h : ∃ g ∈ gs, g.url = u ∧ x ∈ g.chunks) :
    ∃ g ∈ insertHit enc gs r, g.url = u ∧ x ∈ g.chunks := by
  induction gs with
  | nil => simp at h
  | cons g0 gs ih =>
      rcases h with ⟨g, hg, hu, hx⟩
      by_cases h0 : g0.url = r.url
      · simp only [insertHit, if_pos h0]
        rcases List.mem_cons.mp hg with hg | hg
        · subst hg
          exact ⟨_, List.mem_cons_self _ _, hu, by simp [hx]⟩
        · exact ⟨g, by simp [hg], hu, hx⟩
      · simp only [insertHit, if_neg h0]
        rcases List.mem_cons.mp hg with hg | hg
        · subst hg
          exact ⟨g, by simp, hu, hx⟩
        · rcases ih ⟨g, hg, hu, hx⟩ with ⟨g', hg', hu', hx'⟩
          exact ⟨g', by simp [hg'], hu', hx'⟩

theorem insertHit_mem_self (enc : String → List Nat)
    (gs : List DocumentGroup) (r : SearchResult) :
    ∃ g ∈ insertHit enc gs r, g.url = r.url ∧ r ∈ g.chunks := by
  induction gs with
  | nil => exact ⟨newGroup enc r, by simp [insertHit], rfl, by simp [newGroup]⟩
  | cons g0 gs ih =>
      by_cases h0 : g0.url = r.url
      · simp only [insertHit, if_pos h0]
        exact ⟨_, List.mem_cons_self _ _, h0, by simp⟩
      · rcases ih with ⟨g, hg, hu, hx⟩
        exact ⟨g, by simp [insertHit, h0, hg], hu, hx⟩

theorem insertHit_nodup (enc : String → List Nat) (gs : List DocumentGroup)
    (r : SearchResult) (h : (gs.map (·.url)).Nodup) :
    ((insertHit enc gs r).map (·.url)).Nodup := by
  rw [insertHit_map_url]
  by_cases hm : r.url ∈ gs.map (·.url)
  · simpa [hm] using h
  · simp only [if_neg hm]
    exact List.Nodup.append h (List.nodup_singleton _)
      (by simpa [List.disjoint_singleton] using hm)

/-- Membership in `insertHit gs r`, assuming group urls are distinct: a group
of the output is an untouched group of `gs` with a different url, the unique
matching group of `gs` extended with `r`, or (when no group matches) the
fresh group for `r`. -/
theorem insertHit_mem_cases (enc : String → List Nat)
    (gs : List DocumentGroup) (r : SearchResult)
    (hnd : (gs.map (·.url)).Nodup) (g : DocumentGroup)
    (hg : g ∈ insertHit enc gs r) :
    (g ∈ gs ∧ g.url ≠ r.url) ∨
    (∃ g0 ∈ gs, g0.url = r.url ∧
      g = { g0 with chunks := g0.chunks ++ [r],
                    totalTokens := g0.totalTokens + hitTokens enc r }) ∨
    (r.url ∉ gs.map (·.url) ∧ g = newGroup enc r) := by
  induction gs with
  | nil =>
      simp only [insertHit, List.mem_singleton] at hg
      exact Or.inr (Or.inr ⟨by simp, hg⟩)
  | cons g0 gs ih =>
      rw [List.map_cons, List.nodup_cons] at hnd
      have hnd0 : g0.url ∉ gs.map (·.url) := hnd.1
      have hndt : (gs.map (·.url)).Nodup := hnd.2
      by_cases h0 : g0.url = r.url
      · simp only [insertHit, if_pos h0, List.mem_cons] at hg
        rcases hg with hg | hg
        · exact Or.inr (Or.inl ⟨g0, by simp, h0, hg⟩)
        · refine Or.inl ⟨List.mem_cons_of_mem _ hg, ?_⟩
          intro hu
          exact hnd0 (h0 ▸ hu ▸ List.mem_map_of_mem (·.url) hg)
      · simp only [insertHit, if_neg h0, List.mem_cons] at hg
        rcases hg with hg | hg
        · exact Or.inl ⟨by simp [hg], hg ▸ h0⟩
        · rcases ih hndt hg with ⟨hmem, hne⟩ | ⟨g1, hg1, hu1, hEq⟩ | ⟨hnm, hEq⟩
          · exact Or.inl ⟨List.mem_cons_of_mem _ hmem, hne⟩
          · exact Or.inr (Or.inl ⟨g1, List.mem_cons_of_mem _ hg1, hu1, hEq⟩)
          · exact Or.inr (Or.inr ⟨by simp [hnm, Ne.symm h0], hEq⟩)

theorem foldl_insertHit_sum (enc : String → List Nat)
    (rs : List SearchResult) :
    ∀ gs : List DocumentGroup,
      ((rs.foldl (insertHit enc) gs).map (·.chunks.length)).sum =
        (gs.map (·.chunks.length)).sum + rs.length := by
  induction rs with
  | nil => intro gs; simp
  | cons r rs ih =>
      intro gs
      simp only [List.foldl_cons, ih, insertHit_sum_chunks, List.length_cons]
      omega

theorem foldl_insertHit_preserves (enc : String → List Nat)
    (P : DocumentGroup → Prop)
    (hnew : ∀ r, P (newGroup enc r))
    (hupd : ∀ (g : DocumentGroup) (r : SearchResult), P g → g.url = r.url →
      P { g with chunks := g.chunks ++ [r],
                 totalTokens := g.totalTokens + hitTokens enc r })
    (rs : List SearchResult) :
    ∀ gs : List DocumentGroup, (∀ g ∈ gs, P g) →
      ∀ g ∈ rs.foldl (insertHit enc) gs, P g := by
  induction rs with
  | nil => intro gs hall; simpa using hall
  | cons r rs ih =>
      intro gs hall
      simp only [List.foldl_cons]
      exact ih (insertHit enc gs r)
        (insertHit_preserves enc P gs r (hnew r) (fun g hg => hupd g r hg) hall)

theorem foldl_insertHit_nodup (enc : String → List Nat)
    (rs : List SearchResult) :
    ∀ gs : List DocumentGroup, (gs.map (·.url)).Nodup →
      ((rs.foldl (insertHit enc) gs).map (·.url)).Nodup := by
  induction rs with
  | nil => intro gs h; simpa using h
  | cons r rs ih =>
      intro gs h
      simp only [List.foldl_cons]
      exact ih _ (insertHit_nodup enc gs r h)

theorem foldl_insertHit_mem_mono (enc : String → List Nat)
    (rs : List SearchResult) :
    ∀ (gs : List DocumentGroup) (x : SearchResult) (u : String),
      (∃ g ∈ gs, g.url = u ∧ x ∈ g.chunks) →
      ∃ g ∈ rs.foldl (insertHit enc) gs, g.url = u ∧ x ∈ g.chunks := by
  induction rs with
  | nil => intro gs x u h; simpa using h
  | cons r rs ih =>
      intro gs x u h
      simp only [List.foldl_cons]
      exact ih (insertHit enc gs r) x u (insertHit_mem_mono enc gs r x u h)

theorem foldl_insertHit_mem (enc : String → List Nat)
    (rs : List SearchResult) :
    ∀ gs : List DocumentGroup, ∀ r ∈ rs,
      ∃ g ∈ rs.foldl (insertHit enc) gs, g.url = r.url ∧ r ∈ g.chunks := by
  induction rs with
  | nil => intro gs r hr; simp at hr
  | cons r0 rs ih =>
      intro gs r hr
      simp only [List.foldl_cons]
      rcases List.mem_cons.mp hr with hr | hr
      · subst hr
        exact foldl_insertHit_mem_mono enc rs (insertHit enc gs r) r r.url
          (insertHit_mem_self enc gs r)
      · exact ih (insertHit enc gs r0) r hr

theorem foldl_insertHit_map_url (enc : String → List Nat)
    (rs : List SearchResult) :
    ∀ gs : List DocumentGroup,
      (rs.foldl (insertHit enc) gs).map (·.url) =
        gs.map (·.url) ++ newUrls (gs.map (·.url)) (rs.map (·.url)) := by
  induction rs with
  | nil => intro gs; simp [newUrls]
  | cons r rs ih =>
      intro gs
      simp only [List.foldl_cons, List.map_cons, newUrls]
      by_cases hm : r.url ∈ gs.map (·.url)
      · rw [ih, insertHit_map_url, if_pos hm, if_pos hm]
      · rw [ih, insertHit_map_url, if_neg hm, if_neg hm, List.append_assoc,
          List.singleton_append]

/-- The chunks of every group of `foldl (insertHit enc) gs rs` are the
matching chunks of `gs` followed by the hits of `rs` with that url, in input
order. -/
theorem foldl_insertHit_chunks (enc : String → List Nat)
    (rs : List SearchResult) :
    ∀ gs : List DocumentGroup, (gs.map (·.url)).Nodup →
      ∀ g ∈ rs.foldl (insertHit enc) gs,
        (∃ g0 ∈ gs, g0.url = g.url ∧
          g.chunks = g0.chunks ++ rs.filter (fun r => r.url = g.url)) ∨
        (g.url ∉ gs.map (·.url) ∧
          g.chunks = rs.filter (fun r => r.url = g.url)) := by
  induction rs with
  | nil =>
      intro gs _ g hg
      exact Or.inl ⟨g, by simpa using hg, rfl, by simp⟩
  | cons r rs ih =>
      intro gs hnd g hg
      simp only [List.foldl_cons] at hg
      rcases ih (insertHit enc gs r) (insertHit_nodup enc gs r hnd) g hg with
        ⟨g1, hg1, hu1, hch⟩ | ⟨hnm, hch⟩
      · rcases insertHit_mem_cases enc gs r hnd g1 hg1 with
          ⟨hmem, hne⟩ | ⟨g0, hg0, hu0, hEq⟩ | ⟨hnew, hEq⟩
        · refine Or.inl ⟨g1, hmem, hu1, ?_⟩
          rw [hch, List.filter_cons]
          have : ¬ (r.url = g.url) := fun h => hne (hu1.trans h.symm)
          simp [this]
        · refine Or.inl ⟨g0, hg0, by rw [← hu1, hEq], ?_⟩
          have hur : r.url = g.url := by rw [← hu1, hEq]; exact hu0.symm
          rw [hch, hEq, List.filter_cons]
          simp [hur]
        · refine Or.inr ⟨by rw [← hu1, hEq]; simpa [newGroup] using hnew, ?_⟩
          have hur : r.url = g.url := by rw [← hu1, hEq]; rfl
          rw [hch, hEq, List.filter_cons]
          simp [hur, newGroup]
      · have hsub : ∀ u, u ∈ gs.map (·.url) →
            u ∈ (insertHit enc gs r).map (·.url) := by
          intro u hu
          rw [insertHit_map_url]
          split <;> simp [hu]
        have hrin : r.url ∈ (insertHit enc gs r).map (·.url) := by
          rw [insertHit_map_url]
          by_cases hm : r.url ∈ gs.map (·.url) <;> simp [hm]
        have hgs : g.url ∉ gs.map (·.url) := fun h => hnm (hsub _ h)
        have hner : ¬ (r.url = g.url) := fun h => hnm (h ▸ hrin)
        refine Or.inr ⟨hgs, ?_⟩
        rw [hch, List.filter_cons]
        simp [hner]

/-! ## Sorting lemmas -/

theorem mem_insertByRelevance (g x : DocumentGroup)
    (l : List DocumentGroup) :
    x ∈ insertByRelevance g l ↔ x = g ∨ x ∈ l := by
  induction l with
  | nil => simp [insertByRelevance]
  | cons h t ih =>
      by_cases hc : h.relevanceScore ≤ g.relevanceScore
      · simp [insertByRelevance, hc]
      · simp [insertByRelevance, hc, ih]
        tauto

theorem pairwise_insertByRelevance (g : DocumentGroup)
    (l : List DocumentGroup)
    (hl : l.Pairwise (fun a b => b.relevanceScore ≤ a.relevanceScore)) :
    (insertByRelevance g l).Pairwise
      (fun a b => b.relevanceScore ≤ a.relevanceScore) := by
  induction l with
  | nil => simp [insertByRelevance]
  | cons h t ih =>
      rcases List.pairwise_cons.mp hl with ⟨hh, ht⟩
      by_cases hc : h.relevanceScore ≤ g.relevanceScore
      · simp only [insertByRelevance, if_pos hc]
        refine List.pairwise_cons.mpr ⟨?_, hl⟩
        intro x hx
        rcases List.mem_cons.mp hx with hx | hx
        · exact hx ▸ hc
        · exact le_trans (hh x hx) hc
      · simp only [insertByRelevance, if_neg hc]
        refine List.pairwise_cons.mpr ⟨?_, ih ht⟩
        intro x hx
        rcases (mem_insertByRelevance g x t).mp hx with hx | hx
        · exact hx ▸ le_of_lt (lt_of_not_le hc)
        · exact hh x hx

theorem sortByRelevanceDesc_pairwise (gs : List DocumentGroup) :
    (sortByRelevanceDesc gs).Pairwise
      (fun a b => b.relevanceScore ≤ a.relevanceScore) := by
  induction gs with
  | nil => simp [sortByRelevanceDesc]
  | cons g gs ih => exact pairwise_insertByRelevance g _ ih

/-! ## Truncation and packing lemmas -/

theorem jsToInt_nonneg {q : ℚ} (h : 0 ≤ q) : 0 ≤ jsToInt q := by
  unfold jsToInt
  rw [if_neg (not_lt.mpr h)]
  exact Int.floor_nonneg.mpr h

theorem jsToInt_le {q : ℚ} (h : 0 ≤ q) : ((jsToInt q : Int) : ℚ) ≤ q := by
  unfold jsToInt
  rw [if_neg (not_lt.mpr h)]
  exact Int.floor_le q

theorem jsSliceTo_length_le {α : Type} (l : List α) (x : Int) (hx : 0 ≤ x) :
    ((jsSliceTo l x).length : Int) ≤ x := by
  unfold jsSliceTo
  rw [if_neg (not_lt.mpr hx)]
  have h1 : (l.take x.toNat).length ≤ x.toNat := by
    simp [List.length_take]
  omega

theorem truncateResult_tokenCount_le (enc : String → List Nat)
    (dec : List Nat → String) (r : OptimizedResult) (q : ℚ) (h : 20 ≤ q) :
    ((truncateResult enc dec r q).tokenCount : ℚ) ≤ q := by
  have h20 : (0 : ℚ) ≤ q - 20 := by linarith
  have hx : 0 ≤ jsToInt (q - 20) := jsToInt_nonneg h20
  have hlen : (((jsSliceTo (enc r.content) (jsToInt (q - 20))).length : Int) : ℚ)
      ≤ ((jsToInt (q - 20) : Int) : ℚ) := by
    exact_mod_cast jsSliceTo_length_le (enc r.content) _ hx
  have hfl : ((jsToInt (q - 20) : Int) : ℚ) ≤ q - 20 := jsToInt_le h20
  simp only [truncateResult]
  push_cast
  push_cast at hlen
  linarith

theorem applyOptimizationStrategy_tokens_le (enc : String → List Nat)
    (dec : List Nat → String) (opts : OptimizationOptions) (maxT : ℚ) :
    ∀ (gs : List DocumentGroup) (used : ℚ), used ≤ maxT →
      ((applyOptimizationStrategy enc dec opts maxT gs used).map
        (fun r => (r.tokenCount : ℚ))).sum + used ≤ maxT + 20 := by
  intro gs
  induction gs with
  | nil =>
      intro used hu
      simp only [applyOptimizationStrategy, List.map_nil, List.sum_nil]
      linarith
  | cons g gs ih =>
      intro used hu
      simp only [applyOptimizationStrategy]
      by_cases hfit :
          used + ((materializeGroup enc opts g).tokenCount : ℚ) ≤ maxT
      · rw [if_pos hfit]
        have := ih (used + ((materializeGroup enc opts g).tokenCount : ℚ)) hfit
        simp only [List.map_cons, List.sum_cons]
        linarith
      · rw [if_neg hfit]
        by_cases hroom : 500 < maxT - used
        · rw [if_pos hroom]
          have h20 : (20 : ℚ) ≤ maxT - used := by linarith
          have := truncateResult_tokenCount_le enc dec
            (materializeGroup enc opts g) (maxT - used) h20
          simp only [List.map_cons, List.map_nil, List.sum_cons, List.sum_nil]
          linarith
        · rw [if_neg hroom]
          simp only [List.map_nil, List.sum_nil]
          linarith

/-! ## Claim theorems: result optimizer -/

/-- C1: for every hit list and every options record with a non-negative
token budget and target utilization (the spec constrains
`targetUtilization` to `(0,1]` and the budget to a token count), the sum of
the reported token counts of the optimized results is at most
`tokenBudget × targetUtilization + 20` — a whole result contributes its
measured count, a truncated one its kept-token count plus 20. -/
theorem C1_budget_invariant (enc : String → List Nat)
    (dec : List Nat → String) (opts : OptimizationOptions)
    (results : List SearchResult) (hb : 0 ≤ opts.tokenBudget)
    (hu : 0 ≤ opts.targetUtilization) :
    ((optimizeResults enc dec opts results).map
      (fun r => (r.tokenCount : ℚ))).sum ≤
      opts.tokenBudget * opts.targetUtilization + 20 := by
  have h0 : (0 : ℚ) ≤ opts.tokenBudget * opts.targetUtilization :=
    mul_nonneg hb hu
  have := applyOptimizationStrategy_tokens_le enc dec opts
    (opts.tokenBudget * opts.targetUtilization)
    (sortByRelevanceDesc (calculateRelevanceScores (groupByDocument enc results)))
    0 h0
  simpa [optimizeResults] using this

/-- C1 witness: the bound instantiated at a concrete hit list and the
source's default options. -/
theorem C1_witness :
    ((optimizeResults strEnc strDec wOpts wHits).map
      (fun r => (r.tokenCount : ℚ))).sum ≤
      wOpts.tokenBudget * wOpts.targetUtilization + 20 :=
  C1_budget_invariant strEnc strDec wOpts wHits
    (by norm_num [wOpts]) (by norm_num [wOpts])

/-- C3: every group produced by grouping and scoring a hit list is
non-empty, its `avgScore` is the arithmetic mean of its hit scores, and its
`relevanceScore` is `chunkCount × avgScore`, multiplied by `1.5` exactly
once if and only if the group has at least 3 hits and `avgScore > 0.8`. -/
theorem C3_relevance_scoring (enc : String → List Nat)
    (results : List SearchResult) :
    ∀ g ∈ calculateRelevanceScores (groupByDocument enc results),
      g.chunks ≠ [] ∧
      g.avgScore = (g.chunks.map (·.score)).sum / (g.chunks.length : ℚ) ∧
      g.relevanceScore =
        (if 3 ≤ g.chunks.length ∧ (4/5 : ℚ) < g.avgScore then (3/2 : ℚ)
          else 1) * ((g.chunks.length : ℚ) * g.avgScore) := by
  intro g hg
  rcases List.mem_map.mp hg with ⟨g0, hg0, rfl⟩
  have hne : g0.chunks ≠ [] := by
    have := foldl_insertHit_preserves enc (fun g => g.chunks ≠ [])
      (by intro r; simp [newGroup])
      (by intro g r hg _; simp)
      results [] (by simp) g0 hg0
    exact this
  refine ⟨by simpa [scoreGroup] using hne, by simp [scoreGroup], ?_⟩
  by_cases hcond : 3 ≤ g0.chunks.length ∧
      (4/5 : ℚ) < (g0.chunks.map (·.score)).sum / (g0.chunks.length : ℚ)
  · simp only [scoreGroup, if_pos hcond]
    ring
  · simp only [scoreGroup, if_neg hcond]
    ring

/-- C3 witness: the scoring facts at the concrete group for document `A`
built from `wHits` (2 hits, mean score 17/20, no 1.5× bonus). -/
theorem C3_witness :
    wScoredA.chunks ≠ [] ∧
    wScoredA.avgScore =
      (wScoredA.chunks.map (·.score)).sum / (wScoredA.chunks.length : ℚ) ∧
    wScoredA.relevanceScore =
      (if 3 ≤ wScoredA.chunks.length ∧ (4/5 : ℚ) < wScoredA.avgScore
        then (3/2 : ℚ) else 1) *
        ((wScoredA.chunks.length : ℚ) * wScoredA.avgScore) :=
  C3_relevance_scoring strEnc wHits wScoredA (by
    have h : calculateRelevanceScores (groupByDocument strEnc wHits) =
        [wScoredA, wScoredB] := by
      norm_num [calculateRelevanceScores, groupByDocument, insertHit,
        newGroup, hitTokens, scoreGroup, strEnc, wHits, wHitA1, wHitA2,
        wHitB, wScoredA, wScoredB]
    rw [h]
    simp)

/-- C4: the strategy for a scored group is selected by testing, in this
priority order: `full_document` when
`chunkCount ≥ fullDocumentThreshold ∧ avgScore > 0.75`; otherwise
`expanded_chunk` when `chunkCount ≥ 2 ∨ (chunkCount = 1 ∧ avgScore > 0.85)`;
otherwise `chunk`. -/
theorem C4_strategy_priority (opts : OptimizationOptions)
    (g : DocumentGroup) :
    (opts.fullDocumentThreshold ≤ (g.chunks.length : ℚ) ∧
        (3/4 : ℚ) < g.avgScore →
      determineStrategy opts g = .full_document) ∧
    (¬(opts.fullDocumentThreshold ≤ (g.chunks.length : ℚ) ∧
        (3/4 : ℚ) < g.avgScore) →
      (2 ≤ g.chunks.length ∨
        (g.chunks.length = 1 ∧ (17/20 : ℚ) < g.avgScore)) →
      determineStrategy opts g = .expanded_chunk) ∧
    (¬(opts.fullDocumentThreshold ≤ (g.chunks.length : ℚ) ∧
        (3/4 : ℚ) < g.avgScore) →
      ¬(2 ≤ g.chunks.length ∨
        (g.chunks.length = 1 ∧ (17/20 : ℚ) < g.avgScore)) →
      determineStrategy opts g = .chunk) := by
  refine ⟨fun h1 => ?_, fun h1 h2 => ?_, fun h1 h2 => ?_⟩
  · simp only [determineStrategy, if_pos h1]
  · simp only [determineStrategy, if_neg h1, if_pos h2]
  · simp only [determineStrategy, if_neg h1, if_neg h2]

/-- C4 witness: a 3-hit group with mean score 1 and the default threshold 3
resolves to `full_document`. -/
theorem C4_witness : determineStrategy wOpts wGroupFull = .full_document :=
  (C4_strategy_priority wOpts wGroupFull).1 (by norm_num [wOpts, wGroupFull])

/-- C5: the packing loop's input groups are in descending relevance order,
and the loop's output is exactly: the longest cumulatively-fitting prefix of
materialized groups appended whole, then — only if a group is left over —
that single next group truncated when more than 500 tokens of budget remain
(nothing otherwise); no later group ever contributes. -/
theorem C5_greedy_packing :
    (∀ gs : List DocumentGroup,
      (sortByRelevanceDesc gs).Pairwise
        (fun a b => b.relevanceScore ≤ a.relevanceScore)) ∧
    (∀ (enc : String → List Nat) (dec : List Nat → String)
        (opts : OptimizationOptions) (maxT : ℚ) (gs : List DocumentGroup)
        (used : ℚ),
      applyOptimizationStrategy enc dec opts maxT gs used =
        (gs.take (packFitCount enc opts maxT gs used)).map
          (materializeGroup enc opts) ++
        (gs.drop (packFitCount enc opts maxT gs used)).head?.elim []
          (fun g =>
            if 500 < maxT - (used + packedPrefixTokens enc opts gs
                (packFitCount enc opts maxT gs used)) then
              [truncateResult enc dec (materializeGroup enc opts g)
                (maxT - (used + packedPrefixTokens enc opts gs
                  (packFitCount enc opts maxT gs used)))]
            else [])) := by
  refine ⟨sortByRelevanceDesc_pairwise, ?_⟩
  intro enc dec opts maxT gs
  induction gs with
  | nil =>
      intro used
      simp [applyOptimizationStrategy, packFitCount, fitCount]
  | cons g gs ih =>
      intro used
      by_cases hfit :
          used + ((materializeGroup enc opts g).tokenCount : ℚ) ≤ maxT
      · have hk : packFitCount enc opts maxT (g :: gs) used =
            packFitCount enc opts maxT gs
              (used + ((materializeGroup enc opts g).tokenCount : ℚ)) + 1 := by
          simp [packFitCount, fitCount, List.map_cons, hfit]
        have hp : used + packedPrefixTokens enc opts (g :: gs)
              (packFitCount enc opts maxT gs
                (used + ((materializeGroup enc opts g).tokenCount : ℚ)) + 1) =
            (used + ((materializeGroup enc opts g).tokenCount : ℚ)) +
              packedPrefixTokens enc opts gs
                (packFitCount enc opts maxT gs
                  (used + ((materializeGroup enc opts g).tokenCount : ℚ))) := by
          simp only [packedPrefixTokens, List.take_succ_cons, List.map_cons,
            List.sum_cons]
          ring
        simp only [applyOptimizationStrategy, if_pos hfit, hk,
          List.take_succ_cons, List.map_cons, List.drop_succ_cons, hp]
        rw [ih]
        rfl
      · have hk : packFitCount enc opts maxT (g :: gs) used = 0 := by
          simp [packFitCount, fitCount, List.map_cons, hfit]
        simp only [applyOptimizationStrategy, if_neg hfit, hk,
          List.take_zero, List.map_nil, List.drop_zero, List.head?_cons,
          Option.elim, packedPrefixTokens, List.sum_nil, add_zero,
          List.nil_append]

/-- C6: grouping partitions the hits — group sizes sum to the input length,
group urls are pairwise distinct, every group is non-empty and homogeneous
in its url, and every hit lies in the (unique) group keyed by its url. -/
theorem C6_partition_invariant (enc : String → List Nat)
    (hits : List SearchResult) :
    ((groupByDocument enc hits).map (fun g => g.chunks.length)).sum =
      hits.length ∧
    ((groupByDocument enc hits).map (·.url)).Nodup ∧
    (∀ g ∈ groupByDocument enc hits,
      g.chunks ≠ [] ∧ ∀ c ∈ g.chunks, c.url = g.url) ∧
    (∀ r ∈ hits,
      ∃ g ∈ groupByDocument enc hits, g.url = r.url ∧ r ∈ g.chunks) := by
  refine ⟨?_, ?_, ?_, ?_⟩
  · simpa using foldl_insertHit_sum enc hits []
  · exact foldl_insertHit_nodup enc hits [] (by simp)
  · intro g hg
    refine foldl_insertHit_preserves enc
      (fun g => g.chunks ≠ [] ∧ ∀ c ∈ g.chunks, c.url = g.url)
      (fun r => ⟨by simp [newGroup], by simp [newGroup]⟩)
      (fun g r hP hu => ⟨by simp, ?_⟩)
      hits [] (by simp) g hg
    intro c hc
    rcases List.mem_append.mp hc with hc | hc
    · exact hP.2 c hc
    · rw [List.mem_singleton.mp hc]
      exact hu.symm
  · intro r hr
    exact foldl_insertHit_mem enc hits [] r hr

/-- C6 witness: the partition facts at a concrete 3-hit list over two
documents. -/
theorem C6_witness :
    ((groupByDocument strEnc wHits).map (fun g => g.chunks.length)).sum =
      wHits.length ∧
    (∃ g ∈ groupByDocument strEnc wHits,
      g.url = wHitA2.url ∧ wHitA2 ∈ g.chunks) :=
  ⟨(C6_partition_invariant strEnc wHits).1,
   (C6_partition_invariant strEnc wHits).2.2.2 wHitA2 (by decide)⟩

/-- C9: the grouping step lists document groups in order of the first
occurrence of their url in the input, and each group's hit list is exactly
the input's hits with that url, in input order. -/
theorem C9_grouping_order (enc : String → List Nat)
    (hits : List SearchResult) :
    (groupByDocument enc hits).map (·.url) =
      newUrls [] (hits.map (·.url)) ∧
    ∀ g ∈ groupByDocument enc hits,
      g.chunks = hits.filter (fun r => r.url = g.url) := by
  constructor
  · simpa using foldl_insertHit_map_url enc hits []
  · intro g hg
    rcases foldl_insertHit_chunks enc hits [] (by simp) g hg with
      ⟨g0, hg0, _⟩ | ⟨_, hch⟩
    · simp at hg0
    · exact hch

/-- C9 witness: first-occurrence order and input-order chunks at the
concrete 3-hit list (urls `A`, `B`, `A`). -/
theorem C9_witness :
    (groupByDocument strEnc wHits).map (·.url) = ["A", "B"] ∧
    wGroupA.chunks = wHits.filter (fun r => r.url = wGroupA.url) :=
  ⟨by rw [(C9_grouping_order strEnc wHits).1]; decide,
   (C9_grouping_order strEnc wHits).2 wGroupA (by decide)⟩

/-! ## Text scanning lemmas -/

theorem dropWhile_eq_self_of {p : Char → Bool} {l : List Char}
    (h : ∀ c ∈ l, p c = false) : l.dropWhile p = l := by
  cases l with
  | nil => rfl
  | cons a t =>
      exact List.dropWhile_cons_of_neg (by simp [h a (by simp)])

theorem dropWhile_eq_nil_of {p : Char → Bool} {l : List Char}
    (h : ∀ c ∈ l, p c = true) : l.dropWhile p = [] := by
  induction l with
  | nil => rfl
  | cons a t ih =>
      rw [List.dropWhile_cons_of_pos (by simp [h a (by simp)])]
      exact ih (fun c hc => h c (by simp [hc]))

theorem takeWhile_eq_self_of {p : Char → Bool} {l : List Char}
    (h : ∀ c ∈ l, p c = true) : l.takeWhile p = l := by
  induction l with
  | nil => rfl
  | cons a t ih =>
      rw [List.takeWhile_cons_of_pos (by simp [h a (by simp)])]
      rw [ih (fun c hc => h c (by simp [hc]))]

theorem sentenceMatches_eq_nil (t : List Char)
    (h : ∀ c ∈ t, isSentenceTerm c = false) : sentenceMatches t = [] := by
  have hterm : sentenceTerms t = [] := by
    unfold sentenceTerms
    rw [dropWhile_eq_self_of h]
    rw [dropWhile_eq_nil_of (p := fun c => !(isSentenceTerm c))
      (by intro c hc; simp [h c hc])]
    rfl
  show sentenceMatchesF (t.length + 1) t = []
  rw [sentenceMatchesF]
  simp [hterm]

theorem dropWhile_dropWhile (p : Char → Bool) (l : List Char) :
    (l.dropWhile p).dropWhile p = l.dropWhile p := by
  induction l with
  | nil => rfl
  | cons a t ih =>
      by_cases h : p a
      · rw [List.dropWhile_cons_of_pos h]
        exact ih
      · rw [List.dropWhile_cons_of_neg h, List.dropWhile_cons_of_neg h]

theorem head_false_of_dropWhile_self {p : Char → Bool} {a : Char}
    {t : List Char} (he : (a :: t).dropWhile p = a :: t) : p a = false := by
  by_contra hp
  have hp' : p a = true := by simpa using hp
  rw [List.dropWhile_cons_of_pos hp'] at he
  have h1 := congrArg List.length he
  have h2 := (List.dropWhile_sublist (l := t) p).length_le
  simp at h1
  omega

theorem jsTrim_cons_space (t : List Char) : jsTrim (' ' :: t) = jsTrim t := by
  unfold jsTrim
  rw [List.dropWhile_cons_of_pos (by simp [isJsSpace])]

theorem jsTrim_idem (l : List Char) : jsTrim (jsTrim l) = jsTrim l := by
  have h1 : (l.dropWhile isJsSpace).dropWhile isJsSpace =
      l.dropWhile isJsSpace := dropWhile_dropWhile _ _
  have hrev : (jsTrim l).reverse =
      (l.dropWhile isJsSpace).reverse.dropWhile isJsSpace := by
    unfold jsTrim
    exact List.reverse_reverse _
  have hpre : jsTrim l <+: l.dropWhile isJsSpace := by
    have hsuf : (jsTrim l).reverse <:+ (l.dropWhile isJsSpace).reverse := by
      rw [hrev]
      exact List.dropWhile_suffix _
    have := List.reverse_prefix.mpr hsuf
    simpa using this
  have hdrop : (jsTrim l).dropWhile isJsSpace = jsTrim l := by
    cases hB : jsTrim l with
    | nil => rfl
    | cons b t =>
        rcases hpre with ⟨rest, hrest⟩
        rw [hB] at hrest
        have hA : l.dropWhile isJsSpace = b :: (t ++ rest) := by
          rw [← hrest]
          simp
        have hhead : isJsSpace b = false :=
          head_false_of_dropWhile_self (by rw [← hA]; exact h1)
        exact List.dropWhile_cons_of_neg (by simp [hhead])
  set B := jsTrim l with hBdef
  unfold jsTrim
  rw [hdrop, hrev, dropWhile_dropWhile, hBdef]
  unfold jsTrim
  rfl

/-! ## Claim theorems: chunking configuration handling (C2) -/

/-- C2 counterexample: with the strategy string `"contextual"` (outside the
code's enumerated set) chunks are produced by a silent fallback to
traditional chunking, and with `chunkOverlap = 10 ≥ chunkSize = 5` the
sentence strategy also produces chunks — no configuration error exists. -/
theorem C2_counterexample :
    chunkDocument charEnc charDec wCfgBogus "abcdefg".data "u" =
      traditionalChunking charEnc charDec wCfgBogus
        (preprocessContent "abcdefg".data) "u" ∧
    (chunkDocument charEnc charDec wCfgBogus "abcdefg".data "u").getD []
      ≠ [] ∧
    (chunkDocument charEnc charDec wCfgSentenceBig
      "Hello there. Bye.".data "u").getD [] ≠ [] :=
  ⟨rfl, by decide, by decide⟩

/-- C2 (amended): `chunkDocument` performs no configuration validation: a
strategy value outside the enumerated set silently dispatches to the
traditional strategy (the switch's `default`), and `chunkOverlap ≥
chunkSize` is accepted without an error (the sentence strategy ignores the
overlap entirely; the token-window strategies simply fail to advance). -/
theorem C2_amended_no_validation :
    (∀ (enc : List Char → List Nat) (dec : List Nat → List Char)
        (cfg : ChunkingConfig) (content : List Char) (u : String),
      cfg.strategy ≠ "late-chunking" → cfg.strategy ≠ "semantic" →
      cfg.strategy ≠ "sentence" →
      chunkDocument enc dec cfg content u =
        traditionalChunking enc dec cfg (preprocessContent content) u) ∧
    (∀ (enc : List Char → List Nat) (dec : List Nat → List Char)
        (cfg : ChunkingConfig) (content : List Char) (u : String),
      cfg.strategy = "sentence" →
      chunkDocument enc dec cfg content u =
        some (sentenceChunking enc cfg (preprocessContent content) u)) := by
  constructor
  · intro enc dec cfg content u h1 h2 h3
    simp [chunkDocument, h1, h2, h3]
  · intro enc dec cfg content u h
    simp [chunkDocument, h]

/-- C2 witness: the amended statement at the concrete out-of-set strategy
`"contextual"` and at a sentence config with `chunkOverlap ≥ chunkSize`. -/
theorem C2_witness :
    chunkDocument charEnc charDec wCfgBogus "xy".data "u" =
      traditionalChunking charEnc charDec wCfgBogus
        (preprocessContent "xy".data) "u" ∧
    chunkDocument charEnc charDec wCfgSentenceBig "Hi. Bo.".data "u" =
      some (sentenceChunking charEnc wCfgSentenceBig
        (preprocessContent "Hi. Bo.".data) "u") :=
  ⟨C2_amended_no_validation.1 charEnc charDec wCfgBogus "xy".data "u"
      (by decide) (by decide) (by decide),
   C2_amended_no_validation.2 charEnc charDec wCfgSentenceBig
      "Hi. Bo.".data "u" rfl⟩

/-! ## Claim theorems: sentence chunking of terminator-free text (C10) -/

/-- C10: for every input whose normalized text is non-empty and contains
none of `.`, `!`, `?`, the sentence strategy returns exactly one chunk
whose content is the trimmed normalized text, for every `chunkSize` and
`minChunkSize` (the whole text is one sentence and the final buffer is
emitted unconditionally). -/
theorem C10_single_sentence (enc : List Char → List Nat)
    (dec : List Nat → List Char) (cfg : ChunkingConfig)
    (content : List Char) (u : String) (hs : cfg.strategy = "sentence")
    (hne : preprocessContent content ≠ [])
    (hterm : ∀ c ∈ preprocessContent content, isSentenceTerm c = false) :
    (chunkDocument enc dec cfg content u).map
      (List.map DocumentChunk.content) =
      some [jsTrim (preprocessContent content)] := by
  have htr : jsTrim (preprocessContent content) = preprocessContent content := by
    unfold preprocessContent
    exact jsTrim_idem _
  have hch : chunkDocument enc dec cfg content u =
      some (sentenceChunking enc cfg (preprocessContent content) u) := by
    unfold chunkDocument
    rw [hs]
    simp
  rw [hch]
  have hmt : sentenceMatches (preprocessContent content) = [] :=
    sentenceMatches_eq_nil _ hterm
  unfold sentenceChunking
  rw [hmt]
  simp only [sentenceLoop]
  rw [if_neg (by simp)]
  have hbuf : jsTrim ([] ++ [' '] ++ preprocessContent content) =
      preprocessContent content := by
    have := jsTrim_cons_space (preprocessContent content)
    simpa [htr] using this
  simp only [sentenceLoop, hbuf]
  rw [if_neg hne]
  simp [htr]

/-- C10 witness: the sentence strategy on `"hello world"` (no terminal
punctuation) yields exactly the one chunk `"hello world"`. -/
theorem C10_witness :
    (chunkDocument charEnc charDec wCfgSentence "hello world".data "u").map
      (List.map DocumentChunk.content) =
      some [jsTrim (preprocessContent "hello world".data)] :=
  C10_single_sentence charEnc charDec wCfgSentence "hello world".data "u"
    rfl (by decide) (by decide)

/-! ## Late-chunking cursor lemmas (C7, C8) -/

theorem foldl_closest_mem (targetEnd : Int) (c0 : Nat) (cs : List Nat) :
    cs.foldl (fun (best cur : Nat) =>
      if ((cur : Int) - targetEnd).natAbs < ((best : Int) - targetEnd).natAbs
      then cur else best) c0 ∈ c0 :: cs := by
  induction cs generalizing c0 with
  | nil => simp
  | cons b t ih =>
      simp only [List.foldl_cons]
      by_cases h : ((b : Int) - targetEnd).natAbs <
          ((c0 : Int) - targetEnd).natAbs
      · rw [if_pos h]
        exact List.mem_cons_of_mem _ (ih b)
      · rw [if_neg h]
        rcases List.mem_cons.mp (ih c0) with h' | h'
        · exact List.mem_cons.mpr (Or.inl h')
        · exact List.mem_cons_of_mem _ (List.mem_cons_of_mem _ h')

theorem findOptimalChunkEnd_bounds (len : Nat) (start : Int)
    (targetSize : Nat) (bnds : List Nat) (hsz : 1 ≤ targetSize)
    (hlt : start < (len : Int)) :
    start < findOptimalChunkEnd len start targetSize bnds ∧
    findOptimalChunkEnd len start targetSize bnds ≤ (len : Int) := by
  have h4 : (4 : Int) ≤ ((targetSize * 4 : Nat) : Int) := by
    push_cast
    omega
  cases hc : List.filter (fun (b : Nat) => decide (start < (b : Int)) &&
      (decide (5 * (b : Int) ≤ 6 * (start + ((targetSize * 4 : Nat) : Int))) &&
        decide ((b : Int) ≤ (len : Int)))) bnds with
  | nil =>
      simp only [findOptimalChunkEnd, hc]
      refine ⟨lt_min ?_ hlt, min_le_right _ _⟩
      omega
  | cons c0 cs =>
      simp only [findOptimalChunkEnd, hc]
      have hmem := foldl_closest_mem (start + ((targetSize * 4 : Nat) : Int))
        c0 cs
      rw [← hc] at hmem
      have hp := List.of_mem_filter hmem
      simp only [Bool.and_eq_true, decide_eq_true_eq] at hp
      exact ⟨hp.1, hp.2.2⟩

theorem lateLoop_isSome (enc : List Char → List Nat)
    (cfg : ChunkingConfig) (c : List Char) (u : String) (bnds : List Nat)
    (hov : cfg.chunkOverlap < cfg.chunkSize) :
    ∀ (fuel : Nat) (pos : Int) (idx : Nat),
      (c.length : Int) ≤ pos + fuel →
      (lateLoop enc cfg c u bnds fuel pos idx).isSome := by
  intro fuel
  induction fuel with
  | zero =>
      intro pos idx h
      simp only [lateLoop]
      rw [if_neg (by push_cast at h ⊢; omega)]
      rfl
  | succ fuel ih =>
      intro pos idx h
      simp only [lateLoop]
      by_cases hpos : pos < (c.length : Int)
      · rw [if_pos hpos]
        have hsz : 1 ≤ cfg.chunkSize := by omega
        have hend := findOptimalChunkEnd_bounds c.length pos cfg.chunkSize
          bnds hsz hpos
        by_cases hskip :
            (enc (sliceChars c pos
              (findOptimalChunkEnd c.length pos cfg.chunkSize bnds))).length <
              effMinChunkSize cfg
        · rw [if_pos hskip]
          refine ih _ idx ?_
          have := hend.1
          push_cast at h ⊢
          omega
        · rw [if_neg hskip]
          have h1 : pos + 1 ≤
              pos + (cfg.chunkSize : Int) - (cfg.chunkOverlap : Int) := by
            omega
          have h2 := le_max_left
            (pos + (cfg.chunkSize : Int) - (cfg.chunkOverlap : Int))
            (findOptimalChunkEnd c.length pos cfg.chunkSize bnds -
              (cfg.chunkOverlap : Int))
          have hnext := ih
            (max (pos + (cfg.chunkSize : Int) - (cfg.chunkOverlap : Int))
              (findOptimalChunkEnd c.length pos cfg.chunkSize bnds -
                (cfg.chunkOverlap : Int)))
            (idx + 1) (by push_cast at h ⊢; omega)
          rcases Option.isSome_iff_exists.mp hnext with ⟨v, hv⟩
          rw [hv]
          rfl
      · rw [if_neg hpos]
        rfl

/-- C8: with `0 < chunkOverlap < chunkSize`, every iteration of the
late-chunking scan strictly advances the cursor — a skipped sub-minimum
chunk advances it to `chunkEnd > pos` (first conjunct, since the skip
branch sets the cursor to `findOptimalChunkEnd`) and an emitted chunk to
`max(pos + chunkSize - chunkOverlap, chunkEnd - chunkOverlap) > pos`
(second conjunct) — so the chunking loop terminates. -/
theorem C8_cursor_progress (enc : List Char → List Nat)
    (dec : List Nat → List Char) (cfg : ChunkingConfig)
    (content : List Char) (u : String) (h0 : 0 < cfg.chunkOverlap)
    (hov : cfg.chunkOverlap < cfg.chunkSize)
    (hs : cfg.strategy = "late-chunking") :
    (∀ (c : List Char) (bnds : List Nat) (pos : Int),
      pos < (c.length : Int) →
      pos < findOptimalChunkEnd c.length pos cfg.chunkSize bnds ∧
      ∀ chunkEnd : Int,
        pos < max (pos + (cfg.chunkSize : Int) - (cfg.chunkOverlap : Int))
          (chunkEnd - (cfg.chunkOverlap : Int))) ∧
    (chunkDocument enc dec cfg content u).isSome := by
  constructor
  · intro c bnds pos hpos
    refine ⟨(findOptimalChunkEnd_bounds c.length pos cfg.chunkSize bnds
      (by omega) hpos).1, ?_⟩
    intro chunkEnd
    have h1 : pos < pos + (cfg.chunkSize : Int) - (cfg.chunkOverlap : Int) := by
      omega
    exact lt_of_lt_of_le h1 (le_max_left _ _)
  · unfold chunkDocument
    rw [hs]
    simp only [if_pos rfl]
    unfold lateChunking
    exact lateLoop_isSome enc cfg (preprocessContent content) u _ hov _ 0 0
      (by push_cast; omega)

/-- C8 witness: cursor progress and termination at a concrete late-chunking
config (`chunkSize = 3`, `chunkOverlap = 1`) and document. -/
theorem C8_witness :
    ((0 : Int) < findOptimalChunkEnd ("ab cd".data.length) 0
      wCfgLate.chunkSize []) ∧
    (chunkDocument charEnc charDec wCfgLate "ab cd".data "u").isSome :=
  ⟨((C8_cursor_progress charEnc charDec wCfgLate "ab cd".data "u"
      (by decide) (by decide) rfl).1 "ab cd".data [] 0 (by decide)).1,
   (C8_cursor_progress charEnc charDec wCfgLate "ab cd".data "u"
      (by decide) (by decide) rfl).2⟩

/-! ## Offset lemmas (C7) -/

theorem effMinChunkSize_pos (cfg : ChunkingConfig) :
    1 ≤ effMinChunkSize cfg := by
  unfold effMinChunkSize
  split
  · split <;> omega
  · omega

theorem lateLoop_bounds (enc : List Char → List Nat) (cfg : ChunkingConfig)
    (c : List Char) (u : String) (bnds : List Nat)
    (hov : cfg.chunkOverlap < cfg.chunkSize) :
    ∀ (fuel : Nat) (pos : Int) (idx : Nat) (res : List DocumentChunk),
      0 ≤ pos → lateLoop enc cfg c u bnds fuel pos idx = some res →
      ∀ ch ∈ res, 0 ≤ ch.startOffset ∧ ch.startOffset < ch.endOffset ∧
        ch.endOffset ≤ (c.length : Int) := by
  intro fuel
  induction fuel with
  | zero =>
      intro pos idx res hpos0 hres ch hch
      simp only [lateLoop] at hres
      by_cases hpos : pos < (c.length : Int)
      · rw [if_pos hpos] at hres
        exact absurd hres (by simp)
      · rw [if_neg hpos] at hres
        injection hres with h
        rw [← h] at hch
        simp at hch
  | succ fuel ih =>
      intro pos idx res hpos0 hres ch hch
      simp only [lateLoop] at hres
      by_cases hpos : pos < (c.length : Int)
      · rw [if_pos hpos] at hres
        have hsz : 1 ≤ cfg.chunkSize := by omega
        have hend := findOptimalChunkEnd_bounds c.length pos cfg.chunkSize
          bnds hsz hpos
        by_cases hskip :
            (enc (sliceChars c pos
              (findOptimalChunkEnd c.length pos cfg.chunkSize bnds))).length <
              effMinChunkSize cfg
        · rw [if_pos hskip] at hres
          have hnp : (0 : Int) ≤
              findOptimalChunkEnd c.length pos cfg.chunkSize bnds := by
            have := hend.1
            omega
          exact ih _ idx res hnp hres ch hch
        · rw [if_neg hskip] at hres
          rcases Option.map_eq_some'.mp hres with ⟨rest, hrest, hres'⟩
          rw [← hres'] at hch
          rcases List.mem_cons.mp hch with hch | hch
          · rw [hch]
            exact ⟨hpos0, hend.1, hend.2⟩
          · have h1 : pos + 1 ≤
                pos + (cfg.chunkSize : Int) - (cfg.chunkOverlap : Int) := by
              omega
            have h2 := le_max_left
              (pos + (cfg.chunkSize : Int) - (cfg.chunkOverlap : Int))
              (findOptimalChunkEnd c.length pos cfg.chunkSize bnds -
                (cfg.chunkOverlap : Int))
            exact ih _ (idx + 1) rest (by omega) hrest ch hch
      · rw [if_neg hpos] at hres
        injection hres with h
        rw [← h] at hch
        simp at hch

theorem splitOnListF_sum_le (sep : List Char) :
    ∀ (fuel : Nat) (s : List Char),
      ((splitOnListF fuel sep s).map List.length).sum ≤ s.length := by
  intro fuel
  induction fuel with
  | zero => intro s; simp [splitOnListF]
  | succ fuel ih =>
      intro s
      cases hidx : idxOfSep sep s with
      | none => simp [splitOnListF, hidx]
      | some i =>
          have hsep : sep ≠ [] := by
            intro h
            rw [h] at hidx
            simp [idxOfSep] at hidx
          have hL : 1 ≤ sep.length := List.length_pos.mpr hsep
          simp only [splitOnListF, hidx, List.map_cons, List.sum_cons]
          have hrec := ih (s.drop (i + sep.length))
          simp only [List.length_drop] at hrec
          have ht : (s.take i).length = min i s.length := List.length_take _ _
          omega

theorem jsSplit_sum_le (sep s : List Char) :
    ((jsSplit sep s).map List.length).sum ≤ s.length := by
  unfold jsSplit
  by_cases h : sep = []
  · rw [if_pos h]
    have hall : ∀ t : List Char,
        ((t.map (fun c => [c])).map List.length).sum = t.length := by
      intro t
      induction t with
      | nil => simp
      | cons a t ih =>
          simp only [List.map_cons, List.sum_cons, ih]
          simp [Nat.add_comm]
    rw [hall]
  · rw [if_neg h]
    exact splitOnListF_sum_le sep _ s

theorem flatten_jsSplit_sum_le (sep : List Char)
    (secs : List (List Char)) :
    (((secs.map (jsSplit sep)).flatten).map List.length).sum ≤
      (secs.map List.length).sum := by
  induction secs with
  | nil => simp
  | cons s t ih =>
      simp only [List.map_cons, List.flatten_cons, List.map_append,
        List.sum_append, List.sum_cons]
      have := jsSplit_sum_le sep s
      omega

theorem semanticSections_sum_le (cfg : ChunkingConfig)
    (content : List Char) :
    ((semanticSections cfg content).map List.length).sum ≤
      content.length := by
  have hgen : ∀ (seps : List (List Char)) (secs : List (List Char)),
      ((seps.foldl (fun secs sep => (secs.map (jsSplit sep)).flatten)
        secs).map List.length).sum ≤ (secs.map List.length).sum := by
    intro seps
    induction seps with
    | nil => intro secs; simp
    | cons sep t ih =>
        intro secs
        simp only [List.foldl_cons]
        exact le_trans (ih _) (flatten_jsSplit_sum_le sep secs)
  have := hgen (cfg.semanticSeparators.getD [['\n', '\n'], ['\n']]) [content]
  simpa [semanticSections] using this

theorem tradEmit_mem (dec : List Nat → List Char) (cfg : ChunkingConfig)
    (u : String) (tokens : List Nat) :
    ∀ (starts : List Nat) (idx : Nat) (ch : DocumentChunk),
      ch ∈ tradEmit dec cfg u tokens starts idx →
      ∃ i : Nat,
        effMinChunkSize cfg ≤ ((tokens.drop i).take cfg.chunkSize).length ∧
        ch.startOffset = 0 ∧
        ch.endOffset =
          ((dec ((tokens.drop i).take cfg.chunkSize)).length : Int) := by
  intro starts
  induction starts with
  | nil =>
      intro idx ch h
      simp [tradEmit] at h
  | cons i is ih =>
      intro idx ch h
      simp only [tradEmit] at h
      by_cases hskip :
          ((tokens.drop i).take cfg.chunkSize).length < effMinChunkSize cfg
      · rw [if_pos hskip] at h
        exact ih idx ch h
      · rw [if_neg hskip] at h
        rcases List.mem_cons.mp h with h | h
        · rw [h]
          exact ⟨i, by omega, rfl, rfl⟩
        · exact ih (idx + 1) ch h

theorem traditionalChunking_mem (enc : List Char → List Nat)
    (dec : List Nat → List Char) (cfg : ChunkingConfig) (s : List Char)
    (u : String) (subs : List DocumentChunk)
    (h : traditionalChunking enc dec cfg s u = some subs) :
    ∀ ch ∈ subs, ∃ i : Nat,
      effMinChunkSize cfg ≤ (((enc s).drop i).take cfg.chunkSize).length ∧
      ch.startOffset = 0 ∧
      ch.endOffset =
        ((dec (((enc s).drop i).take cfg.chunkSize)).length : Int) := by
  intro ch hch
  unfold traditionalChunking at h
  by_cases h0 : (enc s).length = 0
  · rw [if_pos h0] at h
    injection h with h
    rw [← h] at hch
    simp at hch
  · rw [if_neg h0] at h
    by_cases hstep : cfg.chunkSize ≤ cfg.chunkOverlap
    · rw [if_pos hstep] at h
      exact absurd h (by simp)
    · rw [if_neg hstep] at h
      injection h with h
      rw [← h] at hch
      exact tradEmit_mem dec cfg u (enc s) _ 0 ch hch

theorem decode_window_bounds (enc : List Char → List Nat)
    (dec : List Nat → List Char) (ts : TokenizerSound enc dec)
    (s : List Char) (i k : Nat) (hne : ((enc s).drop i).take k ≠ []) :
    1 ≤ (dec (((enc s).drop i).take k)).length ∧
      (dec (((enc s).drop i).take k)).length ≤ s.length := by
  obtain ⟨he, hadd, hrt, htok⟩ := ts
  constructor
  · cases hw : ((enc s).drop i).take k with
    | nil => exact absurd hw hne
    | cons t w =>
        have hsplit : dec (t :: w) = dec [t] ++ dec w := by
          have h2 := hadd [t] w
          simpa using h2
        rw [hsplit]
        have hnt := htok t
        cases hd : dec [t] with
        | nil => exact absurd hd hnt
        | cons a b => simp
  · have hdecomp : enc s =
        ((enc s).take i) ++ (((enc s).drop i).take k) ++
          (((enc s).drop i).drop k) := by
      rw [List.append_assoc, List.take_append_drop, List.take_append_drop]
    have hde : dec (enc s) =
        dec ((enc s).take i) ++ dec (((enc s).drop i).take k) ++
          dec (((enc s).drop i).drop k) := by
      conv_lhs => rw [hdecomp]
      rw [hadd, hadd]
    have hlen := congrArg List.length hde
    rw [hrt] at hlen
    simp only [List.length_append] at hlen
    omega

theorem semLoop_bounds (enc : List Char → List Nat)
    (dec : List Nat → List Char) (cfg : ChunkingConfig) (u : String)
    (L : Nat) (ts : TokenizerSound enc dec) :
    ∀ (ss : List (List Char)) (idx off : Nat),
      off + (ss.map List.length).sum ≤ L →
      ∀ res, semLoop enc dec cfg u ss idx off = some res →
      ∀ ch ∈ res, 0 ≤ ch.startOffset ∧ ch.startOffset < ch.endOffset ∧
        ch.endOffset ≤ (L : Int) := by
  intro ss
  induction ss with
  | nil =>
      intro idx off hsum res hres ch hch
      simp only [semLoop] at hres
      injection hres with h
      rw [← h] at hch
      simp at hch
  | cons s t ih =>
      intro idx off hsum res hres ch hch
      simp only [List.map_cons, List.sum_cons] at hsum
      simp only [semLoop] at hres
      by_cases hskip : (enc s).length < effMinChunkSize cfg
      · rw [if_pos hskip] at hres
        exact ih idx (off + s.length) (by omega) res hres ch hch
      · rw [if_neg hskip] at hres
        have hsnem : s ≠ [] := by
          intro hnil
          rw [hnil, ts.1] at hskip
          simp at hskip
          have := effMinChunkSize_pos cfg
          omega
        have hslen : 1 ≤ s.length := List.length_pos.mpr hsnem
        have hemit : ∀ (idx' : Nat) (rest : List DocumentChunk),
            semLoop enc dec cfg u t idx' (off + s.length) = some rest →
            ∀ ch' ∈ semEmit enc u s idx off :: rest,
              0 ≤ ch'.startOffset ∧ ch'.startOffset < ch'.endOffset ∧
                ch'.endOffset ≤ (L : Int) := by
          intro idx' rest hrest ch' hch'
          rcases List.mem_cons.mp hch' with hch' | hch'
          · rw [hch']
            refine ⟨?_, ?_, ?_⟩
            · show (0 : Int) ≤ (off : Int)
              omega
            · show (off : Int) < (off : Int) + (s.length : Int)
              omega
            · show (off : Int) + (s.length : Int) ≤ (L : Int)
              omega
          · exact ih idx' (off + s.length) (by omega) rest hrest ch' hch'
        cases hmax : cfg.maxChunkSize with
        | none =>
            simp only [hmax] at hres
            rcases Option.map_eq_some'.mp hres with ⟨rest, hrest, hres'⟩
            rw [← hres'] at hch
            exact hemit (idx + 1) rest hrest ch hch
        | some m =>
            simp only [hmax] at hres
            by_cases hbig : m < (enc s).length
            · rw [if_pos hbig] at hres
              cases htr : traditionalChunking enc dec cfg s u with
              | none =>
                  rw [htr] at hres
                  exact absurd hres (by simp)
              | some subs =>
                  rw [htr] at hres
                  rcases Option.map_eq_some'.mp hres with ⟨rest, hrest, hres'⟩
                  rw [← hres'] at hch
                  rcases List.mem_append.mp hch with hch | hch
                  · rcases List.mem_map.mp hch with ⟨p, hp, hpe⟩
                    rcases p with ⟨j, ch0⟩
                    have hmem : ch0 ∈ subs := by
                      have hsnd := List.mem_map_of_mem Prod.snd hp
                      rw [List.enum_map_snd] at hsnd
                      exact hsnd
                    rcases traditionalChunking_mem enc dec cfg s u subs htr
                      ch0 hmem with ⟨i, hmin, hso, heo⟩
                    have hwne : ((enc s).drop i).take cfg.chunkSize ≠ [] := by
                      intro hnil
                      rw [hnil] at hmin
                      simp at hmin
                      have := effMinChunkSize_pos cfg
                      omega
                    have hw := decode_window_bounds enc dec ts s i
                      cfg.chunkSize hwne
                    rw [← hpe]
                    simp only []
                    refine ⟨?_, ?_, ?_⟩
                    · show (0 : Int) ≤ (off : Int) + ch0.startOffset
                      rw [hso]
                      omega
                    · show (off : Int) + ch0.startOffset <
                        (off : Int) + ch0.endOffset
                      rw [hso, heo]
                      have := hw.1
                      omega
                    · show (off : Int) + ch0.endOffset ≤ (L : Int)
                      rw [heo]
                      have h1 := hw.2
                      omega
                  · exact ih (idx + subs.length) (off + s.length) (by omega)
                      rest hrest ch hch
            · rw [if_neg hbig] at hres
              rcases Option.map_eq_some'.mp hres with ⟨rest, hrest, hres'⟩
              rw [← hres'] at hch
              exact hemit (idx + 1) rest hrest ch hch

theorem tokenizerSound_char : TokenizerSound charEnc charDec := by
  refine ⟨rfl, ?_, ?_, ?_⟩
  · intro a b
    simp [charDec]
  · intro s
    simp [charEnc, charDec, List.map_map, Function.comp_def]
  · intro tk
    simp [charDec]

/-! ## Claim theorems: chunk offset invariant (C7) -/

/-- C7 counterexample: under the sentence strategy on `"Hi. Bo."`, the
first emitted chunk has `startOffset = -1 < 0`, refuting
`0 ≤ startOffset` for the sentence strategy. -/
theorem C7_counterexample :
    ∃ ch ∈ (chunkDocument charEnc charDec wCfgSentence
      "Hi. Bo.".data "u").getD [], ch.startOffset < 0 := by
  decide

/-- C7 (amended): the offset invariant
`0 ≤ startOffset < endOffset ≤ len(normalized text)` holds for the
semantic strategy (for every tokenizer satisfying the collaborator
contract: empty text encodes to no tokens, decoding is concatenative and
inverts encoding, every token decodes non-empty) and for the contextual
(late-chunking) strategy whenever `chunkOverlap < chunkSize` (the
config invariant); for the sentence strategy the lower bound fails —
`startOffset` is undercounted by the separator spaces joined into the
buffer and can be negative. -/
theorem C7_offsets_amended :
    (∀ (enc : List Char → List Nat) (dec : List Nat → List Char)
        (cfg : ChunkingConfig) (content : List Char) (u : String),
      TokenizerSound enc dec → cfg.strategy = "semantic" →
      ∀ res, chunkDocument enc dec cfg content u = some res →
      ∀ ch ∈ res, 0 ≤ ch.startOffset ∧ ch.startOffset < ch.endOffset ∧
        ch.endOffset ≤ ((preprocessContent content).length : Int)) ∧
    (∀ (enc : List Char → List Nat) (dec : List Nat → List Char)
        (cfg : ChunkingConfig) (content : List Char) (u : String),
      cfg.chunkOverlap < cfg.chunkSize → cfg.strategy = "late-chunking" →
      ∀ res, chunkDocument enc dec cfg content u = some res →
      ∀ ch ∈ res, 0 ≤ ch.startOffset ∧ ch.startOffset < ch.endOffset ∧
        ch.endOffset ≤ ((preprocessContent content).length : Int)) := by
  constructor
  · intro enc dec cfg content u ts hs res hres ch hch
    rw [chunkDocument, hs] at hres
    simp only [reduceIte] at hres
    unfold semanticChunking at hres
    exact semLoop_bounds enc dec cfg u (preprocessContent content).length ts
      (semanticSections cfg (preprocessContent content)) 0 0
      (by simpa using semanticSections_sum_le cfg (preprocessContent content))
      res hres ch hch
  · intro enc dec cfg content u hov hs res hres ch hch
    rw [chunkDocument, hs] at hres
    simp only [reduceIte] at hres
    unfold lateChunking at hres
    exact lateLoop_bounds enc cfg (preprocessContent content) u _ hov _ 0 0
      res le_rfl hres ch hch

/-- C7 witness: the amended invariant instantiated at concrete semantic and
late-chunking runs, checked on the first chunk of each. -/
theorem C7_witness :
    (0 ≤ (((chunkDocument charEnc charDec wCfgSem
        "ab cd\n\nefgh".data "u").getD []).getD 0 wDummyChunk).startOffset ∧
      (((chunkDocument charEnc charDec wCfgSem
        "ab cd\n\nefgh".data "u").getD []).getD 0 wDummyChunk).startOffset <
        (((chunkDocument charEnc charDec wCfgSem
          "ab cd\n\nefgh".data "u").getD []).getD 0 wDummyChunk).endOffset ∧
      (((chunkDocument charEnc charDec wCfgSem
        "ab cd\n\nefgh".data "u").getD []).getD 0 wDummyChunk).endOffset ≤
        ((preprocessContent "ab cd\n\nefgh".data).length : Int)) ∧
    (0 ≤ (((chunkDocument charEnc charDec wCfgLate
        "abcd efgh".data "u").getD []).getD 0 wDummyChunk).startOffset ∧
      (((chunkDocument charEnc charDec wCfgLate
        "abcd efgh".data "u").getD []).getD 0 wDummyChunk).startOffset <
        (((chunkDocument charEnc charDec wCfgLate
          "abcd efgh".data "u").getD []).getD 0 wDummyChunk).endOffset ∧
      (((chunkDocument charEnc charDec wCfgLate
        "abcd efgh".data "u").getD []).getD 0 wDummyChunk).endOffset ≤
        ((preprocessContent "abcd efgh".data).length : Int)) :=
  ⟨C7_offsets_amended.1 charEnc charDec wCfgSem "ab cd\n\nefgh".data "u"
      tokenizerSound_char rfl
      ((chunkDocument charEnc charDec wCfgSem "ab cd\n\nefgh".data "u").getD [])
      (by decide)
      (((chunkDocument charEnc charDec wCfgSem
        "ab cd\n\nefgh".data "u").getD []).getD 0 wDummyChunk) (by decide),
   C7_offsets_amended.2 charEnc charDec wCfgLate "abcd efgh".data "u"
      (by decide) rfl
      ((chunkDocument charEnc charDec wCfgLate "abcd efgh".data "u").getD [])
      (by decide)
      (((chunkDocument charEnc charDec wCfgLate
        "abcd efgh".data "u").getD []).getD 0 wDummyChunk) (by decide)⟩

end McpDocs
